import Mathlib

/-!
# Verification of the AI synchronization core of node-red-semantic-flow-language

Shallow embedding, in Lean 4, of the parts of the repository that the frozen
claims C1..C10 are about:

* the 429 retry/backoff controller `with429Retry`
  (src/resources/node-tooltip.js, lines 214-250);
* the per-node resynchronization `resyncNodeWithAI` and its callers
  (src/resources/node-tooltip.js, lines 252-358 and 661-684);
* the provider connectors' `validateConfig`
  (src/resources/ai-connectors/openai-connector-node.js lines 21-33,
   src/unnamed/part_001 lines 34-46);
* `ConnectorUtils.serializeFlowContext`
  (src/resources/ai-connectors/connector-utils.js, lines 36-53);
* the response parsing (code-fence stripping + JSON parse + bounded error
  preview) shared by the connectors
  (src/resources/ai-connectors/openai-connector-node.js, lines 102-114 and
   273-284);
* the `packageInfo` lookup used by POST /ai/custom-nodes
  (src/unnamed/part_004, lines 56-87);
* the graph merge engine: the non-create path of `handlePromptSubmit`
  (src/unnamed/part_003, lines 107-242).

JavaScript numbers that only ever hold small integers are modelled as
`Nat`/`Int`; JavaScript strings as `String`; JavaScript objects with a
statically known field set as structures, and their dynamic extra fields as
association lists `List (String × String)` (JavaScript objects cannot have
duplicate keys, and `Object.keys` iterates in insertion order, which the
association list preserves).
-/

namespace SFL

/-! ## Retry/Backoff controller (src/resources/node-tooltip.js 214-250)

`with429Retry(nodeId, requestFn)` loops `while (attempt < 10)`, invoking
`requestFn` once per iteration.  A resolved promise returns; a rejection with
`error.response.status === 429` increments `attempt`, computes a wait and
continues; any other rejection is rethrown at once.  After the loop it throws
"Maximum retry attempts reached due to rate limiting".

One invocation of the wrapped call is modelled by `CallOutcome`:
`rateLimited hint` is a rejection with HTTP status 429, where `hint` is the
server-supplied retry-after value: the code computes
`Number(retryAfterHeader ?? retryAfterBody)` and tests `Number.isFinite`;
`hint = some s` models the case where that yields the finite number `s`, and
`hint = none` models a missing or non-numeric retry-after (NaN).
`failed msg` is any non-429 rejection. -/

inductive CallOutcome (α : Type) where
  | ok (value : α)
  | rateLimited (retryAfterSeconds : Option Int)
  | failed (message : String)
  deriving Repr, DecidableEq

/-- Observable outcome of a `with429Retry` run: the result (`Except.error`
models a thrown error), how many times `requestFn` was invoked, and the list
of backoff waits (in milliseconds) performed along the way, in order. -/
structure RetryTrace (α : Type) where
  result : Except String α
  invocations : Nat
  waitsMs : List Int
  deriving Repr

/-- The wait computed on a 429, from node-tooltip.js lines 226-231:
`waitMs = (Number.isFinite(retryAfterSeconds) ? retryAfterSeconds * 1000 : 1000) + 1000`. -/
def retryWaitMs (hint : Option Int) : Int :=
  (match hint with
    | some s => s * 1000
    | none => 1000) + 1000

/-- The `while (attempt < 10)` loop of `with429Retry`.  `calls k` is the
outcome of the k-th invocation of `requestFn`: the loop makes exactly one
invocation per iteration, and `attempt` counts the iterations performed so
far, so the loop condition `attempt < 10` is tracked by the structurally
decreasing `remaining = 10 - attempt`. -/
def with429RetryGo {α : Type} (calls : Nat → CallOutcome α) :
    Nat → Nat → RetryTrace α
  | _, 0 => ⟨.error "Maximum retry attempts reached due to rate limiting", 0, []⟩
  | attempt, remaining + 1 =>
    match calls attempt with
    | .ok v => ⟨.ok v, 1, []⟩
    | .rateLimited hint =>
        let rest := with429RetryGo calls (attempt + 1) remaining
        ⟨rest.result, rest.invocations + 1, retryWaitMs hint :: rest.waitsMs⟩
    | .failed msg => ⟨.error msg, 1, []⟩

/-- `with429Retry` from src/resources/node-tooltip.js lines 214-250
(the sync-status side effects on the node are modelled separately, in the
concurrency model below; they do not influence the retry arithmetic). -/
def with429Retry {α : Type} (calls : Nat → CallOutcome α) : RetryTrace α :=
  with429RetryGo calls 0 10

/-- Modelled from the spec: the wait the claim C4 asserts,
`(serverSuppliedRetryAfterSeconds ?? 0) * 1000 + 1000` milliseconds. -/
def specRetryWaitMs (hint : Option Int) : Int :=
  (hint.getD 0) * 1000 + 1000

/-! ## validateConfig (openai-connector-node.js 21-33, part_001 34-46)

Every provider's `validateConfig` filters a hardcoded `required` list by
JavaScript falsiness of `config[field]` and, when something is missing,
returns a single error string `` `Missing required fields: ${missing.join(', ')}` ``.
A config field is modelled as `Option String`: `none` is an absent field
(JavaScript `undefined`), and the only falsy string is the empty one. -/

structure ValidationResult where
  valid : Bool
  errors : List String
  deriving Repr, DecidableEq

/-- JavaScript truthiness of a possibly-absent string value. -/
def truthyStr : Option String → Bool
  | none => false
  | some s => s ≠ ""

/-- `missing.join(', ')` from the connectors. -/
def joinComma : List String → String
  | [] => ""
  | [a] => a
  | a :: rest => a ++ ", " ++ joinComma rest

/-- The shared shape of every provider's `validateConfig`: filter the
`required` list by falsiness, then either report or accept. -/
def validateConfigOf (required : List String) (config : String → Option String) :
    ValidationResult :=
  let missing := required.filter (fun field => !(truthyStr (config field)))
  if missing.length > 0 then
    ⟨false, ["Missing required fields: " ++ joinComma missing]⟩
  else
    ⟨true, []⟩

/-- Required fields of `OpenAIConnector.validateConfig`
(openai-connector-node.js line 22). -/
def openaiRequired : List String := ["apiKey"]

/-- Required fields of `AzureOpenAIConnector.validateConfig`
(part_001 line 35). -/
def azureRequired : List String := ["endpoint", "apiKey", "deploymentName"]

def openaiValidateConfig (config : String → Option String) : ValidationResult :=
  validateConfigOf openaiRequired config

def azureValidateConfig (config : String → Option String) : ValidationResult :=
  validateConfigOf azureRequired config

/-- An empty configuration: every field absent. -/
def emptyConfig : String → Option String := fun _ => none

/-! ## serializeFlowContext (connector-utils.js 36-53)

`JSON.stringify(nodes, null, 2)` is a host primitive; the definition is
parametrized by it (`stringify`), so the theorems hold for every
serialization the host may produce.  The source computes
`ratio = maxFlowContextChars / json.length` and
`Math.floor(nodes.length * ratio)` in IEEE-754 double precision: the
division rounds the exact quotient to the nearest binary64 value
(round-to-nearest, ties to even), the multiplication rounds the exact
product likewise, and `Math.floor` is exact.  Both operands of each
operation are integers far below 2^53, so they are exactly represented and
the results stay in the normal range; the rounding model below covers
exactly that (overflow and subnormals, unreachable from character counts,
are not modelled).  A binary64 value is carried as an exact dyadic pair
`(m, ex)` standing for `m * 2 ^ ex`. -/

/-- The appended truncation notice, template from connector-utils.js line 52. -/
def truncNotice (keepCount total : Nat) : String :=
  "\n\n/* NOTE: Flow truncated for context. Showing " ++ toString keepCount ++
    " of " ++ toString total ++ " nodes. Preserve structure of unseen nodes. */"

/-- Bit length of a natural number (`⌊log₂ n⌋ + 1` for positive `n`), with
the number itself as structural recursion fuel (`n` halves to `0` within
`n` steps for every positive `n`). -/
def bitLenGo : Nat → Nat → Nat
  | 0, _ => 0
  | fuel + 1, n => if n = 0 then 0 else bitLenGo fuel (n / 2) + 1

def bitLen (n : Nat) : Nat := bitLenGo n n

/-- `2 ^ e ≤ a / b` for a positive rational `a / b` and a signed binary
exponent `e`. -/
def le2pow (a b : Nat) (e : Int) : Bool :=
  if 0 ≤ e then 2 ^ e.toNat * b ≤ a else b ≤ a * 2 ^ (-e).toNat

/-- The binary exponent of the positive rational `a / b`: the largest `e`
with `2 ^ e ≤ a / b`.  Since `a < 2 ^ bitLen a` and `b ≥ 2 ^ (bitLen b - 1)`
(and symmetrically), the exponent is `bitLen a - bitLen b` or one less. -/
def ratExp (a b : Nat) : Int :=
  let e0 : Int := (bitLen a : Int) - (bitLen b : Int)
  if le2pow a b e0 then e0 else e0 - 1

/-- Nearest integer to `N / D`, ties to even (IEEE round-to-nearest-even). -/
def roundHalfEven (N D : Nat) : Nat :=
  let m0 := N / D
  let r := N % D
  if 2 * r < D then m0
  else if D < 2 * r then m0 + 1
  else if m0 % 2 = 0 then m0 else m0 + 1

/-- IEEE-754 binary64 division of two exactly-represented naturals: the
exact quotient `a / b`, scaled so its significand has 53 bits, rounded
nearest-even; the result is the dyadic value `m * 2 ^ ex` of the double. -/
def b64DivD (a b : Nat) : Nat × Int :=
  if a = 0 then (0, 0)
  else
    let e := ratExp a b
    let k : Int := 52 - e
    if 0 ≤ k then (roundHalfEven (a * 2 ^ k.toNat) b, -k)
    else (roundHalfEven a (b * 2 ^ (-k).toNat), -k)

/-- IEEE-754 binary64 rounding of an exact dyadic product `M * 2 ^ ex`
(the multiplication result): round the integer part `M` to 53 significant
bits, nearest-even. -/
def b64RoundD (M : Nat) (ex : Int) : Nat × Int :=
  let L := bitLen M
  if L ≤ 53 then (M, ex)
  else (roundHalfEven M (2 ^ (L - 53)), ex + ((L - 53 : Nat) : Int))

/-- `Math.floor` of a nonnegative dyadic value (exact). -/
def dyadicFloor (m : Nat) (ex : Int) : Nat :=
  if 0 ≤ ex then m * 2 ^ ex.toNat else m / 2 ^ (-ex).toNat

/-- The retained-node count, as the source computes it in double precision:
`Math.max(1, Math.floor(nodes.length * (maxFlowContextChars / json.length)))`
— round the division, round the multiplication, floor exactly.  This can be
one less than the exact-arithmetic `max 1 (n * budget / len)`. -/
def jsKeepCount (n budget len : Nat) : Nat :=
  let q := b64DivD budget len
  let p := b64RoundD (n * q.1) q.2
  max 1 (dyadicFloor p.1 p.2)

/-- `ConnectorUtils.serializeFlowContext(nodes, maxFlowContextChars)`
(the default budget in the source is 18000). -/
def serializeFlowContext {α : Type} (stringify : List α → String)
    (nodes : List α) (maxFlowContextChars : Nat) : String :=
  let json := stringify nodes
  if json.length ≤ maxFlowContextChars then json
  else
    let keepCount := jsKeepCount nodes.length maxFlowContextChars json.length
    let trimmed := nodes.take keepCount
    stringify trimmed ++ truncNotice keepCount nodes.length

/-! ## packageInfo (src/unnamed/part_004 56-87)

The in-memory cache `packageInfoCache` is a JavaScript `Map`, modelled as an
association list (insertion order, in-place update on existing keys).  The
two network fetches are modelled by their observable outcome: `some desc` is
a successful HTTP fetch whose description extraction produced `desc`, `none`
is a fetch that threw. -/

/-- `Map.prototype.set`: overwrite in place when the key exists (a JavaScript
`Map` keeps the entry's position), append otherwise. -/
def mapSet : List (String × String) → String → String → List (String × String)
  | [], k, v => [(k, v)]
  | e :: rest, k, v =>
      if e.1 = k then (k, v) :: rest else e :: mapSet rest k v

/-- Result of one `packageInfo(name)` call: the returned description, the
cache afterwards, and whether a network fetch was attempted. -/
structure PackageInfoResult where
  description : String
  cache : List (String × String)
  fetched : Bool
  deriving Repr, DecidableEq

/-- `packageInfo` from part_004 lines 56-87.  Note the two cache writes on
the successful fetch paths store the `description` variable, whose value at
that point is still the pre-fetch one (the empty string); only afterwards is
`description` reassigned to the fetched `desc`. -/
def packageInfo (cache : List (String × String)) (name : String)
    (registryFetch unpkgFetch : Option String) : PackageInfoResult :=
  let description := ((cache.lookup name).getD "")
  if description ≠ "" then
    ⟨description, cache, false⟩
  else
    match registryFetch with
    | some desc => ⟨desc, mapSet cache name description, true⟩
    | none =>
        match unpkgFetch with
        | some desc => ⟨desc, mapSet cache name description, true⟩
        | none => ⟨"", mapSet cache name "", true⟩

/-- Concrete serializer used to instantiate the `serializeFlowContext`
theorem on a computable input. -/
def natJoin (l : List Nat) : String := String.join (l.map toString)

/-- A serializer writing one character per node: 22 nodes serialize to 22
characters, so budget 15 gives the ratio `15 / 22` — the very same binary64
value as the realistic `18000 / 26400`. -/
def padSerialize (l : List Nat) : String :=
  String.mk (List.replicate l.length 'x')

/-! ## Per-node resynchronization concurrency (node-tooltip.js 252-358, 661-684)

`resyncNodeWithAI(node, direction)` is an async function whose effect on the
shared per-node sync status, for a fixed node identifier, is the sequence:

1. `setNodeSyncStatus(node.id, true)` — status := syncing (line 261);
2. `await with429Retry(...)` — the HTTP call, a suspension point at which
   other tasks (including another `resyncNodeWithAI` for the same node) may
   run (lines 266-276 / 302-311);
3. apply the response to the node's fields (lines 280-296 / 321-349);
4. `finally { setNodeSyncStatus(node.id, false) }` — status := idle (356).

Crucially, no statement of `resyncNodeWithAI` reads the node's sync status,
and neither of its callers checks it: the `nodes:change` handler (lines
665-678) guards only on `functionalPropertiesChanged` (a fingerprint
comparison), and `saveAndExitEditMode` (lines 360-390) only on
`infoChanged`.  The model below therefore makes every action total —
executable in any status — which is exactly what the source does. -/

inductive SyncStatus where
  | idle
  | syncing
  | waiting
  deriving Repr, DecidableEq

/-- One atomic action of `resyncNodeWithAI` as it affects the shared
per-node status.  `await` and `applyResult` leave the status unchanged. -/
inductive ResyncAction where
  | setSyncing
  | await
  | applyResult
  | setIdle
  deriving Repr, DecidableEq

/-- The action sequence of one `resyncNodeWithAI` invocation. -/
def resyncProgram : List ResyncAction :=
  [.setSyncing, .await, .applyResult, .setIdle]

/-- Effect of one action on the node's sync status.  Total in the status:
the source contains no conditional on the status before any action. -/
def runAction (st : SyncStatus) : ResyncAction → SyncStatus
  | .setSyncing => .syncing
  | .await => st
  | .applyResult => st
  | .setIdle => .idle

/-- Two concurrent `resyncNodeWithAI` invocations for the same node
identifier: the shared status and each task's remaining actions. -/
structure TwoResyncState where
  status : SyncStatus
  threadA : List ResyncAction
  threadB : List ResyncAction
  deriving Repr, DecidableEq

/-- Run the next action of the chosen task (`true` = A, `false` = B); a
finished task is left unchanged.  Cooperative single-threaded scheduling:
actions are atomic, interleaving happens at the `await` suspension points. -/
def stepThread (s : TwoResyncState) (pick : Bool) : TwoResyncState :=
  if pick then
    match s.threadA with
    | [] => s
    | a :: rest => ⟨runAction s.status a, rest, s.threadB⟩
  else
    match s.threadB with
    | [] => s
    | a :: rest => ⟨runAction s.status a, s.threadA, rest⟩

/-- Execute a schedule (a list of task picks). -/
def runSchedule (sched : List Bool) (s : TwoResyncState) : TwoResyncState :=
  sched.foldl stepThread s

/-- Initial state: node idle, two resync requests pending for the same
node identifier. -/
def twoResyncInit : TwoResyncState := ⟨.idle, resyncProgram, resyncProgram⟩

/-! ## Response parsing (openai-connector-node.js 102-114 and 273-284)

The connectors clean a provider reply with

```
let cleanContent = content.trim()
const codeBlockMatch = cleanContent.match(/^```(?:json)?\s*\n?([\s\S]*?)\n?```$/m)
if (codeBlockMatch) cleanContent = codeBlockMatch[1].trim()
```

and then `JSON.parse(cleanContent)`.  The regular expression is embedded
below as an explicit matcher over `List Char` with JavaScript's semantics:
the engine scans for the leftmost start position at which the pattern
matches (`^` with the `m` flag holds at offset 0 and right after each
newline), `(?:json)?`, `\s*` and `\n?` are greedy with backtracking, the
captured group `([\s\S]*?)` is lazy (shortest first), and `` ```$ `` requires
the closing fence to sit at a line end (end of input or before a newline).
Whichever backtracking path succeeds, the code trims the captured group
afterwards, so whitespace juggling between `\s*`, `\n?` and the group does
not affect the final cleaned text. -/

/-- Whitespace for both `String.prototype.trim` and the regex class `\s`
(the ASCII members; both JavaScript classes agree on them). -/
def isWsChar (c : Char) : Bool :=
  c == ' ' || c == '\n' || c == '\t' || c == '\r'

/-- `String.prototype.trim` on the character list. -/
def jsTrim (l : List Char) : List Char :=
  ((l.dropWhile isWsChar).reverse.dropWhile isWsChar).reverse

/-- Does the list start with the three backticks of a fence? -/
def startsTicks : List Char → Bool
  | c1 :: c2 :: c3 :: _ => c1 == '`' && c2 == '`' && c3 == '`'
  | _ => false

/-- The `$` assertion (with the `m` flag): end of input or before a
newline. -/
def lineEnd : List Char → Bool
  | [] => true
  | c :: _ => c == '\n'

/-- Can the closing part `` \n?```$ `` of the pattern match at this
position?  The two disjuncts are the `\n?` alternatives. -/
def closesAt (l : List Char) : Bool :=
  (match l with
    | c :: rest => c == '\n' && startsTicks rest && lineEnd (rest.drop 3)
    | [] => false)
  || (startsTicks l && lineEnd (l.drop 3))

/-- The lazy group `([\s\S]*?)` followed by `` \n?```$ ``: shortest capture
whose remainder closes. -/
def lazySplit : List Char → Option (List Char)
  | [] => if closesAt [] then some [] else none
  | c :: rest =>
      if closesAt (c :: rest) then some []
      else (lazySplit rest).map (fun g => c :: g)

/-- The `\n?` right before the group: greedily consume one newline, falling
back to not consuming it. -/
def tryNewline (l : List Char) : Option (List Char) :=
  match l with
  | c :: rest => if c == '\n' then lazySplit rest <|> lazySplit l else lazySplit l
  | [] => lazySplit l

/-- The greedy `\s*` after the optional `json` tag: try the longest
whitespace run first, backtracking one character at a time. -/
def tryAfterTicksGo (l : List Char) : Nat → Option (List Char)
  | 0 => tryNewline l
  | i + 1 => tryNewline (l.drop (i + 1)) <|> tryAfterTicksGo l i

def tryAfterTicks (l : List Char) : Option (List Char) :=
  tryAfterTicksGo l (l.takeWhile isWsChar).length

/-- Try the whole fence pattern at this position: three backticks, the
optional `json` tag (preferred), then `\s*`, `\n?`, lazy group, close. -/
def matchFenceAt (l : List Char) : Option (List Char) :=
  if startsTicks l then
    if (l.drop 3).take 4 = ['j', 's', 'o', 'n'] then
      tryAfterTicks (l.drop 7) <|> tryAfterTicks (l.drop 3)
    else tryAfterTicks (l.drop 3)
  else none

/-- Scan the remaining line starts (positions right after a newline). -/
def findFenceGo : List Char → Option (List Char)
  | [] => none
  | c :: rest =>
      if c == '\n' then matchFenceAt rest <|> findFenceGo rest
      else findFenceGo rest

/-- Leftmost match of the fence pattern: offset 0 first, then after each
newline. -/
def findFence (l : List Char) : Option (List Char) :=
  matchFenceAt l <|> findFenceGo l

/-- The cleaning step: trim, match the fence pattern, and on a match use
the trimmed captured group. -/
def stripCodeBlock (content : String) : String :=
  let clean := jsTrim content.data
  match findFence clean with
  | some g => String.mk (jsTrim g)
  | none => String.mk clean

/-! ### JSON values and a recursive-descent `JSON.parse` model

`JSON.parse` is a host primitive; it is modelled by a standard fuelled
recursive-descent parser.  Numbers are restricted to integers and string
escapes are kept as their literal escaped character — simplifications that
do not affect the claims, which never inspect parsed payload contents. -/

inductive Json where
  | null
  | bool (b : Bool)
  | num (n : Int)
  | str (chars : List Char)
  | arr (elems : List Json)
  | obj (members : List (List Char × Json))
  deriving Repr

def skipWs (l : List Char) : List Char := l.dropWhile isWsChar

/-- Parse a run of decimal digits. -/
def parseDigits (l : List Char) : Option (Nat × List Char) :=
  let ds := l.takeWhile (fun c => c.isDigit)
  if ds.isEmpty then none
  else some (ds.foldl (fun a c => a * 10 + (c.toNat - 48)) 0, l.drop ds.length)

mutual

def parseValue : Nat → List Char → Option (Json × List Char)
  | 0, _ => none
  | fuel + 1, l =>
    match skipWs l with
    | 'n' :: 'u' :: 'l' :: 'l' :: rest => some (.null, rest)
    | 't' :: 'r' :: 'u' :: 'e' :: rest => some (.bool true, rest)
    | 'f' :: 'a' :: 'l' :: 's' :: 'e' :: rest => some (.bool false, rest)
    | '"' :: rest => (parseStringRest fuel rest).map (fun p => (.str p.1, p.2))
    | '[' :: rest =>
        match skipWs rest with
        | ']' :: r2 => some (.arr [], r2)
        | _ => (parseElems fuel rest).map (fun p => (.arr p.1, p.2))
    | '{' :: rest =>
        match skipWs rest with
        | '}' :: r2 => some (.obj [], r2)
        | _ => (parseMembers fuel rest).map (fun p => (.obj p.1, p.2))
    | '-' :: rest => (parseDigits rest).map (fun p => (.num (-(p.1 : Int)), p.2))
    | c :: rest =>
        if c.isDigit then (parseDigits (c :: rest)).map (fun p => (.num (p.1 : Int), p.2))
        else none
    | [] => none

def parseStringRest : Nat → List Char → Option (List Char × List Char)
  | 0, _ => none
  | fuel + 1, l =>
    match l with
    | '"' :: rest => some ([], rest)
    | '\\' :: c :: rest => (parseStringRest fuel rest).map (fun p => (c :: p.1, p.2))
    | c :: rest => (parseStringRest fuel rest).map (fun p => (c :: p.1, p.2))
    | [] => none

def parseElems : Nat → List Char → Option (List Json × List Char)
  | 0, _ => none
  | fuel + 1, l =>
    match parseValue fuel l with
    | none => none
    | some (v, rest) =>
        match skipWs rest with
        | ',' :: r2 => (parseElems fuel r2).map (fun p => (v :: p.1, p.2))
        | ']' :: r2 => some ([v], r2)
        | _ => none

def parseMembers : Nat → List Char → Option (List (List Char × Json) × List Char)
  | 0, _ => none
  | fuel + 1, l =>
    match skipWs l with
    | '"' :: rest =>
        match parseStringRest fuel rest with
        | none => none
        | some (key, r1) =>
            match skipWs r1 with
            | ':' :: r2 =>
                match parseValue fuel r2 with
                | none => none
                | some (v, r3) =>
                    match skipWs r3 with
                    | ',' :: r4 => (parseMembers fuel r4).map (fun p => ((key, v) :: p.1, p.2))
                    | '}' :: r4 => some ([(key, v)], r4)
                    | _ => none
            | _ => none
    | _ => none

end

/-- `JSON.parse`: a full-input parse of the cleaned content. -/
def jsonParse (s : String) : Option Json :=
  match parseValue (s.data.length + 1) s.data with
  | some (v, rest) => if skipWs rest = [] then some v else none
  | none => none

/-- Outcome of the parse step shared by the connector methods: the success
flag, the parsed JSON (from which `flow`/`flowName`/`updatedNode`/`name`/
`description` are then extracted by identical field accesses), and the
error message. -/
structure ParseStepResult where
  success : Bool
  parsed : Option Json
  error : String
  deriving Repr

/-- Parse step of `generateFlow` (openai-connector-node.js 102-114; the
`resyncNode` parse at lines 189-201 is identical): on failure the preview is
`content.substring(0, 200)` of the original, untrimmed reply. -/
def flowParseStep (content : String) : ParseStepResult :=
  let clean := stripCodeBlock content
  match jsonParse clean with
  | some v => ⟨true, some v, ""⟩
  | none =>
      ⟨false, none,
        "AI returned invalid JSON. Response preview: " ++
          String.mk (content.data.take 200)⟩

/-- Parse step of `generateDescription` (openai-connector-node.js 273-284):
on failure the preview is `cleanContent.substring(0, 200)` of the unwrapped,
trimmed content. -/
def descriptionParseStep (content : String) : ParseStepResult :=
  let clean := stripCodeBlock content
  match jsonParse clean with
  | some v => ⟨true, some v, ""⟩
  | none =>
      ⟨false, none,
        "AI returned invalid JSON. Response preview: " ++
          String.mk (clean.data.take 200)⟩

/-- No triple-backtick run occurs in the list. -/
abbrev NoTriple (l : List Char) : Prop := ¬ (['`', '`', '`'] <:+: l)

/-- Counterexample reply body: 198 visible characters, then a marker
character `Q` whose only occurrence in the whole reply sits past offset 200,
then filler; not valid JSON. -/
def cexReplyBody : String :=
  String.mk (List.replicate 198 'b' ++ 'Q' :: List.replicate 60 'x')

/-- Counterexample reply: the body wrapped in a `json` code fence. -/
def cexReply : String := "```json\n" ++ cexReplyBody ++ "\n```"

/-! ## Graph merge engine (src/unnamed/part_003, lines 107-242)

The non-create path of `handlePromptSubmit` reconciles `data.flow` (the
AI-proposed node list) against the live editor graph restricted to
`targetTab`.  The live graph is modelled as a node list plus a link list;
the host editor's mutation primitives (`RED.nodes.import`, `RED.nodes.node`,
`RED.nodes.eachLink`, `RED.nodes.addLink`, `RED.nodes.removeLink`,
`RED.nodes.remove`) are external collaborators modelled by their documented
behaviour:

* `import` registers the nodes as given (assigning a position when the
  payload carries none — modelled deterministically as 0) and auto-creates
  links from each imported node's `wires` for targets that exist;
* `node(id)` looks the node up by identifier;
* `addLink({source, sourcePort, target})` appends a link;
* `removeLink` deletes a link;
* `remove(id)` deletes the node and every link touching it.

A node's dynamic, type-specific fields (everything outside `id`, `type`,
`z`, `x`, `y`, `wires`) are carried as an association list `props`
(JavaScript objects cannot repeat keys; `Object.keys` iterates insertion
order).  The UI-only `changed`/`dirty` flags and the emitted redraw events
are not part of the graph structure and are omitted. -/

structure GraphNode where
  id : String
  type : String
  z : String
  x : Int
  y : Int
  wires : Option (List (List String))
  props : List (String × String)
  deriving Repr, DecidableEq

/-- A node of the AI proposal (`data.flow` entry): coordinates and wires may
be absent; `z` is overwritten with the target tab before use (line 122). -/
structure ProposedNode where
  id : String
  type : String
  x : Option Int
  y : Option Int
  wires : Option (List (List String))
  props : List (String × String)
  deriving Repr, DecidableEq

structure Link where
  source : String
  sourcePort : Nat
  target : String
  deriving Repr, DecidableEq

structure Graph where
  nodes : List GraphNode
  links : List Link
  deriving Repr, DecidableEq

/-- `RED.nodes.node(id)`. -/
def lookupNode (g : Graph) (id : String) : Option GraphNode :=
  g.nodes.find? (fun n => n.id == id)

/-- Truthiness of `RED.nodes.node(targetId)` in the `addLink` guards. -/
def nodeExists (g : Graph) (id : String) : Bool :=
  (lookupNode g id).isSome

/-- The links created from one node's `wires` against an existence test:
one link per port per listed target that exists (part_003 lines 157-168 and
206-218). -/
def groupLinks (existsB : String → Bool) (n : ProposedNode) : List Link :=
  match n.wires with
  | some ws =>
      ws.enum.flatMap (fun pw =>
        (pw.2.filter existsB).map (fun t => ⟨n.id, pw.1, t⟩))
  | none => []

/-- `RED.nodes.import`: append the nodes (position defaulting when absent)
and the auto-created links from their wire lists. -/
def importNode (z0 : String) (n : ProposedNode) : GraphNode :=
  ⟨n.id, n.type, z0, n.x.getD 0, n.y.getD 0, n.wires, n.props⟩

def importNodes (g : Graph) (z0 : String) (ns : List ProposedNode) : Graph :=
  let g1 : Graph := ⟨g.nodes ++ ns.map (importNode z0), g.links⟩
  ⟨g1.nodes, g1.links ++ ns.flatMap (groupLinks (nodeExists g1))⟩

/-- `RED.nodes.remove(id)`: delete the node and all links touching it. -/
def removeNodeFromGraph (g : Graph) (id : String) : Graph :=
  ⟨g.nodes.filter (fun n => !(n.id == id)),
    g.links.filter (fun l => !(l.source == id) && !(l.target == id))⟩

/-- Mutate the registry entry found by `RED.nodes.node(id)` (the first node
with that identifier). -/
def updateNodeList (f : GraphNode → GraphNode) (id : String) :
    List GraphNode → List GraphNode
  | [] => []
  | u :: rest =>
      if u.id == id then f u :: rest else u :: updateNodeList f id rest

/-- `existingNode[key] = newNode[key]`: set one dynamic field, keeping its
position when the key exists, appending otherwise. -/
def setProp : List (String × String) → String → String → List (String × String)
  | [], k, v => [(k, v)]
  | e :: rest, k, v =>
      if e.1 == k then (k, v) :: rest else e :: setProp rest k v

/-- The non-special-field copy loop of part_003 lines 183-187: every
proposed dynamic field overwrites the existing one (the skip keys `id`,
`type`, `z`, `x`, `y`, `wires` are the structure fields, not props). -/
def overwriteProps (old new : List (String × String)) : List (String × String) :=
  new.foldl (fun acc kv => setProp acc kv.1 kv.2) old

/-- The field-level effect of the update loop (part_003 lines 178-225) on
the existing node: copy every dynamic field; coordinates only when the
proposal carries them (`existingNode.x = newNode.x ?? existingNode.x`);
wires only when the proposal carries a wire list. -/
def applyNodePatch (n : ProposedNode) (u : GraphNode) : GraphNode :=
  { u with
    props := overwriteProps u.props n.props
    x := match n.x with | some a => a | none => u.x
    y := match n.y with | some a => a | none => u.y
    wires := match n.wires with | some ws => some ws | none => u.wires }

/-- Rebuilt outgoing links for one node: remove every link whose source is
the node, then recreate each port's connections from the wire list
(the remove-then-recreate procedure of lines 145-168 and 194-218). -/
def rebuildLinks (g : Graph) (id : String) (n : ProposedNode) : List Link :=
  g.links.filter (fun l => !(l.source == id)) ++ groupLinks (nodeExists g) n

/-- Phase "FIRST" per added node (lines 140-174): if the node was imported
and the proposal has a wire list, remove the import-time links and rebuild
them, setting the node's `wires` field. -/
def fixAddedNodeWires (g : Graph) (n : ProposedNode) : Graph :=
  match lookupNode g n.id, n.wires with
  | some _, some ws =>
      ⟨updateNodeList (fun u => { u with wires := some ws }) n.id g.nodes,
        rebuildLinks g n.id n⟩
  | _, _ => g

/-- Phase "SECOND" per updated node (lines 178-225): copy fields onto the
existing node; when the proposal carries wires, also rebuild the outgoing
links. -/
def applyUpdate (g : Graph) (n : ProposedNode) : Graph :=
  match lookupNode g n.id with
  | none => g
  | some _ =>
      match n.wires with
      | some _ =>
          ⟨updateNodeList (applyNodePatch n) n.id g.nodes,
            rebuildLinks g n.id n⟩
      | none =>
          ⟨updateNodeList (applyNodePatch n) n.id g.nodes, g.links⟩

/-- Identifiers of the nodes of the target container, in registry order
(the `existingNodes` map of lines 109-118). -/
def containerIds (g : Graph) (z0 : String) : List String :=
  (g.nodes.filter (fun n => n.z == z0)).map (fun n => n.id)

/-- The "add" partition: proposed nodes whose identifier is absent from the
target container (lines 127-133). -/
def toAddOf (g : Graph) (z0 : String) (flow : List ProposedNode) :
    List ProposedNode :=
  flow.filter (fun n => !((containerIds g z0).contains n.id))

/-- The "update" partition: proposed nodes whose identifier is present. -/
def toUpdateOf (g : Graph) (z0 : String) (flow : List ProposedNode) :
    List ProposedNode :=
  flow.filter (fun n => (containerIds g z0).contains n.id)

/-- The merge (the non-create path of `handlePromptSubmit`, part_003 lines
107-242): import the additions, rebuild their wiring, apply the updates,
then remove the container nodes absent from the proposal. -/
def mergeFlow (g : Graph) (z0 : String) (flow : List ProposedNode) : Graph :=
  let existingIds := containerIds g z0
  let newIds := flow.map (fun n => n.id)
  let nodesToAdd := toAddOf g z0 flow
  let nodesToUpdate := toUpdateOf g z0 flow
  let g1 := if nodesToAdd.isEmpty then g else importNodes g z0 nodesToAdd
  let g2 := nodesToAdd.foldl fixAddedNodeWires g1
  let g3 := nodesToUpdate.foldl applyUpdate g2
  existingIds.foldl
    (fun gr id => if newIds.contains id then gr else removeNodeFromGraph gr id) g3

/-- Well-formedness of a merge instance: registry identifiers are unique,
proposal identifiers are unique, a proposal identifier never collides with a
node of another container (the code assumes `RED.nodes.import` keeps the
proposed identifiers, which the host only guarantees without collisions),
and proposal props have unique keys (JavaScript objects cannot repeat
keys). -/
abbrev MergeWF (g : Graph) (z0 : String) (flow : List ProposedNode) : Prop :=
  (g.nodes.map (fun n => n.id)).Nodup ∧
  (flow.map (fun n => n.id)).Nodup ∧
  (∀ n ∈ flow, ∀ m ∈ g.nodes, m.id = n.id → m.z = z0) ∧
  (∀ n ∈ flow, (n.props.map Prod.fst).Nodup)

/-- Keep-test of the removal phase: a node survives unless it was in the
target container and its identifier is absent from the proposal. -/
def mergeKeepB (g : Graph) (z0 : String) (flow : List ProposedNode)
    (id : String) : Bool :=
  !((containerIds g z0).contains id) || (flow.map (fun n => n.id)).contains id

/-- Canonical post-merge shape of a registry node: patched when its
identifier is proposed, untouched otherwise. -/
def mergedNodeOf (flow : List ProposedNode) (u : GraphNode) : GraphNode :=
  match flow.find? (fun n => n.id == u.id) with
  | some n => applyNodePatch n u
  | none => u

/-- Identifiers of the wired proposal nodes (the ones whose outgoing links
get rebuilt). -/
def wiredIdsOf (ns : List ProposedNode) : List String :=
  (ns.filter (fun n => n.wires.isSome)).map (fun n => n.id)

/-- Canonical post-merge node list. -/
def canonNodes (g : Graph) (z0 : String) (flow : List ProposedNode) :
    List GraphNode :=
  (g.nodes.map (mergedNodeOf flow)).filter
      (fun u => mergeKeepB g z0 flow u.id) ++
    (toAddOf g z0 flow).map (importNode z0)

/-- Canonical post-merge identifier list. -/
def mergedIdsOf (g : Graph) (z0 : String) (flow : List ProposedNode) :
    List String :=
  (canonNodes g z0 flow).map (fun n => n.id)

/-- Canonical post-merge link list: surviving foreign links first, then the
rebuilt groups (additions before updates), each group keeping exactly the
targets that exist after the merge. -/
def canonLinks (g : Graph) (z0 : String) (flow : List ProposedNode) :
    List Link :=
  g.links.filter (fun l =>
      !((wiredIdsOf (toAddOf g z0 flow ++ toUpdateOf g z0 flow)).contains
          l.source) &&
        mergeKeepB g z0 flow l.source && mergeKeepB g z0 flow l.target) ++
    ((toAddOf g z0 flow ++ toUpdateOf g z0 flow).filter
        (fun n => n.wires.isSome)).flatMap
      (groupLinks (fun t => (mergedIdsOf g z0 flow).contains t))

/-- The value a dynamic field holds in a props list (`existingNode[key]`):
the first entry with the key. -/
def propValue (ps : List (String × String)) (k : String) : Option String :=
  (ps.find? (fun e => e.1 == k)).map Prod.snd

/-- A concrete merge instance: a proposal node that updates the existing
node `"a"` of the target tab. -/
def mgN : ProposedNode := ⟨"a", "inject", some 5, none, none, [("p", "1")]⟩

/-- The pre-merge registry entry the proposal node `mgN` updates. -/
def mgU : GraphNode := ⟨"a", "inject", "tab", 1, 2, none, []⟩

/-- A concrete two-node registry on tab `"tab"`. -/
def mgG : Graph := ⟨[mgU, ⟨"b", "debug", "tab", 3, 4, none, []⟩], []⟩

/-- A concrete proposal: update `"a"`, add a wired `"d"`, drop `"b"`. -/
def mgFlow : List ProposedNode :=
  [mgN, ⟨"d", "function", none, none, some [["a"]], []⟩]

/-! ## General helper lemmas -/

theorem isInfix_append_right {α : Type} {l l₁ : List α} (h : l <:+: l₁)
    (l₂ : List α) : l <:+: l₁ ++ l₂ := by
  obtain ⟨s, t, rfl⟩ := h
  exact ⟨s, t ++ l₂, by simp⟩

theorem isInfix_append_left {α : Type} {l l₂ : List α} (h : l <:+: l₂)
    (l₁ : List α) : l <:+: l₁ ++ l₂ := by
  obtain ⟨s, t, rfl⟩ := h
  exact ⟨l₁ ++ s, t, by simp⟩

theorem with429RetryGo_exhaust {α : Type} (calls : Nat → CallOutcome α) :
    ∀ remaining attempt,
      (∀ j, j < remaining → ∃ h, calls (attempt + j) = .rateLimited h) →
      (with429RetryGo calls attempt remaining).result =
          .error "Maximum retry attempts reached due to rate limiting" ∧
        (with429RetryGo calls attempt remaining).invocations = remaining := by
  intro remaining
  induction remaining with
  | zero => exact fun _ _ => ⟨rfl, rfl⟩
  | succ r ih =>
    intro attempt hall
    obtain ⟨h0, hc⟩ := hall 0 (Nat.succ_pos r)
    rw [Nat.add_zero] at hc
    have hrest := ih (attempt + 1) (fun j hj => by
      obtain ⟨hh, hcc⟩ := hall (j + 1) (Nat.succ_lt_succ hj)
      refine ⟨hh, ?_⟩
      have harith : attempt + 1 + j = attempt + (j + 1) := by omega
      rw [harith]
      exact hcc)
    simp only [with429RetryGo, hc]
    exact ⟨hrest.1, by simp [hrest.2]⟩

theorem with429RetryGo_prefix_wait {α : Type} (calls : Nat → CallOutcome α) :
    ∀ k remaining attempt (h : Option Int), k < remaining →
      (∀ j, j < k → ∃ hj, calls (attempt + j) = .rateLimited hj) →
      calls (attempt + k) = .rateLimited h →
      (with429RetryGo calls attempt remaining).waitsMs[k]? =
        some (retryWaitMs h) := by
  intro k
  induction k with
  | zero =>
    intro remaining attempt h hk _ hcall
    obtain ⟨r, rfl⟩ : ∃ r, remaining = r + 1 :=
      ⟨remaining - 1, by omega⟩
    rw [Nat.add_zero] at hcall
    simp [with429RetryGo, hcall]
  | succ k ih =>
    intro remaining attempt h hk hpre hcall
    obtain ⟨r, rfl⟩ : ∃ r, remaining = r + 1 :=
      ⟨remaining - 1, by omega⟩
    obtain ⟨h0, hc0⟩ := hpre 0 (Nat.succ_pos k)
    rw [Nat.add_zero] at hc0
    have hrec := ih r (attempt + 1) h (by omega)
      (fun j hj => by
        obtain ⟨hh, hcc⟩ := hpre (j + 1) (Nat.succ_lt_succ hj)
        refine ⟨hh, ?_⟩
        have harith : attempt + 1 + j = attempt + (j + 1) := by omega
        rw [harith]
        exact hcc)
      (by
        have harith : attempt + 1 + k = attempt + (k + 1) := by omega
        rw [harith]
        exact hcall)
    simp [with429RetryGo, hc0, hrec]

theorem with429RetryGo_failfast {α : Type} (calls : Nat → CallOutcome α) :
    ∀ k remaining attempt (msg : String), k < remaining →
      (∀ j, j < k → ∃ hj, calls (attempt + j) = .rateLimited hj) →
      calls (attempt + k) = .failed msg →
      (with429RetryGo calls attempt remaining).result = .error msg ∧
        (with429RetryGo calls attempt remaining).invocations = k + 1 := by
  intro k
  induction k with
  | zero =>
    intro remaining attempt msg hk _ hcall
    obtain ⟨r, rfl⟩ : ∃ r, remaining = r + 1 :=
      ⟨remaining - 1, by omega⟩
    rw [Nat.add_zero] at hcall
    simp [with429RetryGo, hcall]
  | succ k ih =>
    intro remaining attempt msg hk hpre hcall
    obtain ⟨r, rfl⟩ : ∃ r, remaining = r + 1 :=
      ⟨remaining - 1, by omega⟩
    obtain ⟨h0, hc0⟩ := hpre 0 (Nat.succ_pos k)
    rw [Nat.add_zero] at hc0
    have hrec := ih r (attempt + 1) msg (by omega)
      (fun j hj => by
        obtain ⟨hh, hcc⟩ := hpre (j + 1) (Nat.succ_lt_succ hj)
        refine ⟨hh, ?_⟩
        have harith : attempt + 1 + j = attempt + (j + 1) := by omega
        rw [harith]
        exact hcc)
      (by
        have harith : attempt + 1 + k = attempt + (k + 1) := by omega
        rw [harith]
        exact hcall)
    simp only [with429RetryGo, hc0]
    exact ⟨hrec.1, by simp [hrec.2]⟩

theorem mem_infix_joinComma : ∀ (l : List String) (a : String), a ∈ l →
    a.data <:+: (joinComma l).data := by
  intro l
  induction l with
  | nil => intro a ha; cases ha
  | cons b t ih =>
    intro a ha
    cases t with
    | nil =>
      have : a = b := by simpa using ha
      subst this
      exact List.infix_refl _
    | cons c t' =>
      rcases List.mem_cons.mp ha with rfl | hmem
      · show a.data <:+: (a ++ ", " ++ joinComma (c :: t')).data
        simp only [String.data_append]
        exact isInfix_append_right
          (isInfix_append_right (List.infix_refl _) _) _
      · have hih := ih a hmem
        show a.data <:+: (b ++ ", " ++ joinComma (c :: t')).data
        simp only [String.data_append]
        exact isInfix_append_left hih _

theorem validateConfigOf_empty_spec (req : List String) (hne : req ≠ []) :
    (validateConfigOf req emptyConfig).valid = false ∧
      (validateConfigOf req emptyConfig).errors ≠ [] ∧
      ∀ f ∈ req, ∃ e ∈ (validateConfigOf req emptyConfig).errors,
        f.data <:+: e.data := by
  have hfilter : req.filter (fun field => !(truthyStr (emptyConfig field))) = req := by
    simp [emptyConfig, truthyStr]
  have hlen : 0 < req.length := List.length_pos.mpr hne
  simp only [validateConfigOf, hfilter]
  rw [if_pos hlen]
  refine ⟨rfl, by simp, ?_⟩
  intro f hf
  refine ⟨"Missing required fields: " ++ joinComma req, by simp, ?_⟩
  simp only [String.data_append]
  exact isInfix_append_left (mem_infix_joinComma req f hf) _

theorem validateConfigOf_full_spec (req : List String)
    (config : String → Option String)
    (hall : ∀ f ∈ req, truthyStr (config f) = true) :
    validateConfigOf req config = ⟨true, []⟩ := by
  have hfilter : req.filter (fun field => !(truthyStr (config field))) = [] := by
    rw [List.filter_eq_nil_iff]
    intro f hf
    simp [hall f hf]
  simp [validateConfigOf, hfilter]

theorem infix_flowTruncated_notice (k n : Nat) :
    "Flow truncated".data <:+: (truncNotice k n).data := by
  have h1 : "Flow truncated".data <:+:
      ("\n\n/* NOTE: Flow truncated for context. Showing " : String).data := by
    exact ⟨"\n\n/* NOTE: ".data, " for context. Showing ".data, by decide⟩
  unfold truncNotice
  simp only [String.data_append]
  exact isInfix_append_right (isInfix_append_right (isInfix_append_right
    (isInfix_append_right h1 _) _) _) _

theorem lookup_mapSet_self : ∀ (c : List (String × String)) (k v : String),
    (mapSet c k v).lookup k = some v := by
  intro c k v
  induction c with
  | nil => simp [mapSet, List.lookup]
  | cons e t ih =>
    by_cases he : e.1 = k
    · simp [mapSet, he, List.lookup]
    · have hne : (k == e.1) = false := by
        simp [BEq.beq]
        exact fun hk => he hk.symm
      simp [mapSet, he, List.lookup, hne, ih]

/-! ### Lemmas about the fence matcher and trimming -/

theorem noTriple_cons {c : Char} {l : List Char} (h : NoTriple (c :: l)) :
    NoTriple l :=
  fun hin => h (isInfix_append_left hin [c])

theorem startsTicks_false_of_noTriple {l : List Char} (h : NoTriple l) :
    startsTicks l = false := by
  match l with
  | [] => rfl
  | [c] => rfl
  | [c, d] => rfl
  | c :: d :: e :: r =>
    cases hb : startsTicks (c :: d :: e :: r) with
    | false => rfl
    | true =>
      exfalso
      simp only [startsTicks, Bool.and_eq_true, beq_iff_eq] at hb
      obtain ⟨⟨rfl, rfl⟩, rfl⟩ := hb
      exact h ⟨[], r, rfl⟩

theorem startsTicks_body_tail (body : List Char) (h : NoTriple body) :
    startsTicks (body ++ '\n' :: ['`', '`', '`']) = false := by
  match body with
  | [] => rfl
  | [c] =>
    show startsTicks (c :: '\n' :: '`' :: '`' :: '`' :: []) = false
    simp [startsTicks]
  | [c, d] =>
    show startsTicks (c :: d :: '\n' :: '`' :: '`' :: '`' :: []) = false
    simp [startsTicks]
  | c :: d :: e :: r =>
    show startsTicks (c :: d :: e :: (r ++ '\n' :: ['`', '`', '`'])) = false
    cases hb : startsTicks (c :: d :: e :: (r ++ '\n' :: ['`', '`', '`'])) with
    | false => rfl
    | true =>
      exfalso
      simp only [startsTicks, Bool.and_eq_true, beq_iff_eq] at hb
      obtain ⟨⟨rfl, rfl⟩, rfl⟩ := hb
      exact h ⟨[], r, rfl⟩

theorem closesAt_body_tail (b : Char) (rest : List Char)
    (h : NoTriple (b :: rest)) :
    closesAt ((b :: rest) ++ '\n' :: ['`', '`', '`']) = false := by
  have h1 : startsTicks ((b :: rest) ++ '\n' :: ['`', '`', '`']) = false :=
    startsTicks_body_tail (b :: rest) h
  have h2 : startsTicks (rest ++ '\n' :: ['`', '`', '`']) = false :=
    startsTicks_body_tail rest (noTriple_cons h)
  simp only [List.cons_append] at h1 ⊢
  simp only [closesAt, h1, h2]
  simp

theorem lazySplit_body (body : List Char) (h : NoTriple body) :
    lazySplit (body ++ '\n' :: ['`', '`', '`']) = some body := by
  induction body with
  | nil => decide
  | cons b rest ih =>
    have hc := closesAt_body_tail b rest h
    show lazySplit (b :: (rest ++ '\n' :: ['`', '`', '`'])) = some (b :: rest)
    rw [lazySplit]
    rw [show b :: (rest ++ '\n' :: ['`', '`', '`']) =
      (b :: rest) ++ '\n' :: ['`', '`', '`'] from rfl, hc]
    simp [ih (noTriple_cons h)]

theorem matchFenceAt_none {l : List Char} (h : NoTriple l) :
    matchFenceAt l = none := by
  rw [matchFenceAt, startsTicks_false_of_noTriple h]
  rfl

theorem findFenceGo_none {l : List Char} (h : NoTriple l) :
    findFenceGo l = none := by
  induction l with
  | nil => rfl
  | cons c rest ih =>
    rw [findFenceGo]
    by_cases hc : (c == '\n') = true
    · rw [if_pos hc, matchFenceAt_none (noTriple_cons h), ih (noTriple_cons h)]
      rfl
    · rw [if_neg hc]
      exact ih (noTriple_cons h)

theorem findFence_none {l : List Char} (h : NoTriple l) :
    findFence l = none := by
  rw [findFence, matchFenceAt_none h, findFenceGo_none h]
  rfl

theorem dropWhile_eq_self_head {p : Char → Bool} {c : Char} {l : List Char}
    (h : List.dropWhile p (c :: l) = c :: l) : p c = false := by
  cases hp : p c with
  | false => rfl
  | true =>
    exfalso
    rw [List.dropWhile_cons, hp] at h
    simp only [if_true] at h
    have hle : (List.dropWhile p l).length ≤ l.length :=
      (List.dropWhile_suffix p).sublist.length_le
    rw [h] at hle
    simp at hle

theorem jsTrim_eq_self_of_ends {l : List Char}
    (hhead : ∀ c ∈ l.head?, isWsChar c = false)
    (hlast : ∀ c ∈ l.getLast?, isWsChar c = false) : jsTrim l = l := by
  have hdrop : l.dropWhile isWsChar = l := by
    cases l with
    | nil => rfl
    | cons c r =>
      rw [List.dropWhile_cons, hhead c rfl]
      simp
  have hdrop2 : l.reverse.dropWhile isWsChar = l.reverse := by
    cases hr : l.reverse with
    | nil => rfl
    | cons c r =>
      rw [List.dropWhile_cons]
      have hc : isWsChar c = false := by
        apply hlast
        rw [← List.head?_reverse, hr]
        rfl
      rw [hc]
      simp
  rw [jsTrim, hdrop, hdrop2, List.reverse_reverse]

theorem trim_fix_parts {l : List Char} (hfix : jsTrim l = l) :
    l.dropWhile isWsChar = l ∧ l.reverse.dropWhile isWsChar = l.reverse := by
  have hb := congrArg List.length hfix
  rw [jsTrim, List.length_reverse] at hb
  have h1 : (l.dropWhile isWsChar).length ≤ l.length :=
    (List.dropWhile_suffix isWsChar).sublist.length_le
  have h2 : ((l.dropWhile isWsChar).reverse.dropWhile isWsChar).length ≤
      (l.dropWhile isWsChar).length := by
    calc ((l.dropWhile isWsChar).reverse.dropWhile isWsChar).length
        ≤ (l.dropWhile isWsChar).reverse.length :=
          (List.dropWhile_suffix isWsChar).sublist.length_le
      _ = (l.dropWhile isWsChar).length := List.length_reverse _
  have hlen1 : (l.dropWhile isWsChar).length = l.length := by omega
  have ha : l.dropWhile isWsChar = l :=
    (List.dropWhile_suffix isWsChar).eq_of_length hlen1
  refine ⟨ha, ?_⟩
  have hfix2 := hfix
  rw [jsTrim, ha] at hfix2
  have := congrArg List.reverse hfix2
  rwa [List.reverse_reverse] at this

theorem head_not_ws_of_trim_fix {c : Char} {l : List Char}
    (hfix : jsTrim (c :: l) = c :: l) : isWsChar c = false :=
  dropWhile_eq_self_head (trim_fix_parts hfix).1

/-! ### Infix lemmas: everything the matcher captures is a substring -/

theorem lazySplit_front : ∀ {l g : List Char}, lazySplit l = some g → g <+: l := by
  intro l
  induction l with
  | nil =>
    intro g hg
    rw [lazySplit] at hg
    by_cases hc : closesAt [] = true
    · rw [if_pos hc] at hg
      cases hg
      exact List.prefix_refl _
    · rw [if_neg hc] at hg
      cases hg
  | cons c rest ih =>
    intro g hg
    rw [lazySplit] at hg
    by_cases hc : closesAt (c :: rest) = true
    · rw [if_pos hc] at hg
      cases hg
      exact ⟨c :: rest, rfl⟩
    · rw [if_neg hc] at hg
      cases hrec : lazySplit rest with
      | none => rw [hrec] at hg; cases hg
      | some g' =>
        rw [hrec] at hg
        cases hg
        obtain ⟨t, ht⟩ := ih hrec
        exact ⟨t, by rw [List.cons_append, ht]⟩

theorem tryNewline_within {l g : List Char} (h : tryNewline l = some g) :
    g <:+: l := by
  match l with
  | [] =>
    rw [tryNewline] at h
    exact (lazySplit_front h).isInfix
  | c :: rest =>
    rw [tryNewline] at h
    by_cases hc : (c == '\n') = true
    · rw [if_pos hc] at h
      cases hrec : lazySplit rest with
      | none =>
        rw [hrec] at h
        simp only [Option.none_orElse] at h
        exact (lazySplit_front h).isInfix
      | some g' =>
        rw [hrec] at h
        simp only [Option.some_orElse] at h
        cases h
        exact isInfix_append_left (lazySplit_front hrec).isInfix [c]
    · rw [if_neg hc] at h
      exact (lazySplit_front h).isInfix

theorem tryAfterTicksGo_within {l g : List Char} :
    ∀ {i : Nat}, tryAfterTicksGo l i = some g → g <:+: l := by
  intro i
  induction i with
  | zero =>
    intro h
    rw [tryAfterTicksGo] at h
    exact tryNewline_within h
  | succ i ih =>
    intro h
    rw [tryAfterTicksGo] at h
    cases halt : tryNewline (l.drop (i + 1)) with
    | none =>
      rw [halt] at h
      simp only [Option.none_orElse] at h
      exact ih h
    | some g' =>
      rw [halt] at h
      simp only [Option.some_orElse] at h
      cases h
      exact (tryNewline_within halt).trans (List.drop_suffix _ _).isInfix

theorem tryAfterTicks_within {l g : List Char} (h : tryAfterTicks l = some g) :
    g <:+: l :=
  tryAfterTicksGo_within h

theorem matchFenceAt_within {l g : List Char} (h : matchFenceAt l = some g) :
    g <:+: l := by
  rw [matchFenceAt] at h
  by_cases hs : startsTicks l = true
  · rw [if_pos hs] at h
    have hdropinf : ∀ {g' : List Char} {k : Nat},
        tryAfterTicks (l.drop k) = some g' → g' <:+: l := fun hg =>
      (tryAfterTicks_within hg).trans (List.drop_suffix _ _).isInfix
    by_cases htag : (l.drop 3).take 4 = ['j', 's', 'o', 'n']
    · rw [if_pos htag] at h
      cases halt : tryAfterTicks (l.drop 7) with
      | none =>
        rw [halt] at h
        simp only [Option.none_orElse] at h
        exact hdropinf h
      | some g' =>
        rw [halt] at h
        simp only [Option.some_orElse] at h
        cases h
        exact hdropinf halt
    · rw [if_neg htag] at h
      exact hdropinf h
  · rw [if_neg hs] at h
    cases h

theorem findFenceGo_within {l g : List Char} (h : findFenceGo l = some g) :
    g <:+: l := by
  induction l with
  | nil => cases h
  | cons c rest ih =>
    rw [findFenceGo] at h
    by_cases hc : (c == '\n') = true
    · rw [if_pos hc] at h
      cases halt : matchFenceAt rest with
      | none =>
        rw [halt] at h
        simp only [Option.none_orElse] at h
        exact isInfix_append_left (ih h) [c]
      | some g' =>
        rw [halt] at h
        simp only [Option.some_orElse] at h
        cases h
        exact isInfix_append_left (matchFenceAt_within halt) [c]
    · rw [if_neg hc] at h
      exact isInfix_append_left (ih h) [c]

theorem findFence_within {l g : List Char} (h : findFence l = some g) :
    g <:+: l := by
  rw [findFence] at h
  cases halt : matchFenceAt l with
  | none =>
    rw [halt] at h
    simp only [Option.none_orElse] at h
    exact findFenceGo_within h
  | some g' =>
    rw [halt] at h
    simp only [Option.some_orElse] at h
    cases h
    exact matchFenceAt_within halt

theorem jsTrim_within (l : List Char) : jsTrim l <:+: l := by
  obtain ⟨s, hs⟩ := List.dropWhile_suffix (l := l) isWsChar
  obtain ⟨t, ht⟩ :=
    List.dropWhile_suffix (l := (l.dropWhile isWsChar).reverse) isWsChar
  refine ⟨s, t.reverse, ?_⟩
  have ha : l.dropWhile isWsChar =
      ((l.dropWhile isWsChar).reverse.dropWhile isWsChar).reverse ++ t.reverse := by
    have hrev := congrArg List.reverse ht
    rw [List.reverse_append, List.reverse_reverse] at hrev
    exact hrev.symm
  simp only [jsTrim]
  rw [List.append_assoc, ← ha, hs]

theorem stripCodeBlock_data_within (content : String) :
    (stripCodeBlock content).data <:+: content.data := by
  rw [stripCodeBlock]
  cases hf : findFence (jsTrim content.data) with
  | none =>
    simp only [hf]
    exact jsTrim_within content.data
  | some g =>
    simp only [hf]
    exact ((jsTrim_within g).trans (findFence_within hf)).trans
      (jsTrim_within content.data)

/-! ### Computing the fence match on a wrapped reply -/

theorem tryAfterTicks_wrapped (c : Char) (r : List Char)
    (hcws : isWsChar c = false) (hnt : NoTriple (c :: r)) :
    tryAfterTicks ('\n' :: ((c :: r) ++ '\n' :: ['`', '`', '`'])) =
      some (c :: r) := by
  have hcn : (c == '\n') = false := by
    cases hb : (c == '\n') with
    | false => rfl
    | true =>
      exfalso
      have hc : c = '\n' := by simpa using hb
      rw [hc] at hcws
      exact absurd hcws (by decide)
  have htw : (('\n' :: ((c :: r) ++ '\n' :: ['`', '`', '`'])).takeWhile
      isWsChar).length = 1 := by
    simp [List.takeWhile_cons, hcws, show isWsChar '\n' = true from rfl]
  have hln : lazySplit ((c :: r) ++ '\n' :: ['`', '`', '`']) = some (c :: r) :=
    lazySplit_body _ hnt
  have htn : tryNewline ((c :: r) ++ '\n' :: ['`', '`', '`']) = some (c :: r) := by
    show tryNewline (c :: (r ++ '\n' :: ['`', '`', '`'])) = _
    rw [tryNewline, if_neg (by simp [hcn])]
    exact hln
  rw [tryAfterTicks, htw]
  rw [tryAfterTicksGo]
  have hd : ('\n' :: ((c :: r) ++ '\n' :: ['`', '`', '`'])).drop (0 + 1) =
      (c :: r) ++ '\n' :: ['`', '`', '`'] := rfl
  rw [hd, htn]
  rfl

theorem stripCodeBlock_self (j : String) (hfix : jsTrim j.data = j.data)
    (hnt : NoTriple j.data) : stripCodeBlock j = j := by
  have hff : findFence (jsTrim j.data) = none := by
    rw [hfix]
    exact findFence_none hnt
  simp only [stripCodeBlock, hff]
  apply String.ext
  exact hfix

theorem stripCodeBlock_wrapped_json (j : String) (hne : j.data ≠ [])
    (hfix : jsTrim j.data = j.data) (hnt : NoTriple j.data) :
    stripCodeBlock ("```json\n" ++ j ++ "\n```") = j := by
  obtain ⟨c, r, hcr⟩ := List.exists_cons_of_ne_nil hne
  have hcws : isWsChar c = false :=
    head_not_ws_of_trim_fix (by rw [← hcr]; exact hfix)
  have hdata : ("```json\n" ++ j ++ "\n```").data =
      '`' :: '`' :: '`' :: 'j' :: 's' :: 'o' :: 'n' ::
        ('\n' :: (j.data ++ '\n' :: ['`', '`', '`'])) := by
    simp [String.data_append]
  have htrim : jsTrim (("```json\n" ++ j ++ "\n```").data) =
      ("```json\n" ++ j ++ "\n```").data := by
    apply jsTrim_eq_self_of_ends
    · rw [hdata]
      intro x hx
      have hxe : '`' = x := by simpa using hx
      rw [← hxe]
      rfl
    · rw [hdata]
      intro x hx
      have hsplit : '`' :: '`' :: '`' :: 'j' :: 's' :: 'o' :: 'n' ::
          ('\n' :: (j.data ++ '\n' :: ['`', '`', '`'])) =
          ('`' :: '`' :: '`' :: 'j' :: 's' :: 'o' :: 'n' ::
            ('\n' :: (j.data ++ ['\n', '`', '`']))) ++ ['`'] := by
        simp
      rw [hsplit, List.getLast?_concat] at hx
      have hxe : '`' = x := by simpa using hx
      rw [← hxe]
      rfl
  have hmf : matchFenceAt ('`' :: '`' :: '`' :: 'j' :: 's' :: 'o' :: 'n' ::
      ('\n' :: (j.data ++ '\n' :: ['`', '`', '`']))) = some j.data := by
    rw [matchFenceAt]
    rw [if_pos (by simp [startsTicks])]
    rw [if_pos (by rfl)]
    have htat : tryAfterTicks (('`' :: '`' :: '`' :: 'j' :: 's' :: 'o' :: 'n' ::
        ('\n' :: (j.data ++ '\n' :: ['`', '`', '`']))).drop 7) = some j.data := by
      show tryAfterTicks ('\n' :: (j.data ++ '\n' :: ['`', '`', '`'])) = some j.data
      rw [hcr]
      exact tryAfterTicks_wrapped c r hcws (by rw [← hcr]; exact hnt)
    rw [htat]
    rfl
  have hff : findFence (jsTrim (("```json\n" ++ j ++ "\n```").data)) =
      some j.data := by
    rw [htrim, hdata, findFence, hmf]
    rfl
  simp only [stripCodeBlock, hff]
  apply String.ext
  exact hfix

theorem stripCodeBlock_wrapped_plain (j : String) (hne : j.data ≠ [])
    (hfix : jsTrim j.data = j.data) (hnt : NoTriple j.data) :
    stripCodeBlock ("```\n" ++ j ++ "\n```") = j := by
  obtain ⟨c, r, hcr⟩ := List.exists_cons_of_ne_nil hne
  have hcws : isWsChar c = false :=
    head_not_ws_of_trim_fix (by rw [← hcr]; exact hfix)
  have hdata : ("```\n" ++ j ++ "\n```").data =
      '`' :: '`' :: '`' ::
        ('\n' :: (j.data ++ '\n' :: ['`', '`', '`'])) := by
    simp [String.data_append]
  have htrim : jsTrim (("```\n" ++ j ++ "\n```").data) =
      ("```\n" ++ j ++ "\n```").data := by
    apply jsTrim_eq_self_of_ends
    · rw [hdata]
      intro x hx
      have hxe : '`' = x := by simpa using hx
      rw [← hxe]
      rfl
    · rw [hdata]
      intro x hx
      have hsplit : '`' :: '`' :: '`' ::
          ('\n' :: (j.data ++ '\n' :: ['`', '`', '`'])) =
          ('`' :: '`' :: '`' ::
            ('\n' :: (j.data ++ ['\n', '`', '`']))) ++ ['`'] := by
        simp
      rw [hsplit, List.getLast?_concat] at hx
      have hxe : '`' = x := by simpa using hx
      rw [← hxe]
      rfl
  have htag : (('`' :: '`' :: '`' ::
      ('\n' :: (j.data ++ '\n' :: ['`', '`', '`']))).drop 3).take 4 ≠
      ['j', 's', 'o', 'n'] := by
    show ('\n' :: (j.data ++ '\n' :: ['`', '`', '`'])).take 4 ≠ _
    rw [List.take_succ_cons]
    simp
  have hmf : matchFenceAt ('`' :: '`' :: '`' ::
      ('\n' :: (j.data ++ '\n' :: ['`', '`', '`']))) = some j.data := by
    rw [matchFenceAt]
    rw [if_pos (by simp [startsTicks])]
    rw [if_neg htag]
    show tryAfterTicks ('\n' :: (j.data ++ '\n' :: ['`', '`', '`'])) = some j.data
    rw [hcr]
    exact tryAfterTicks_wrapped c r hcws (by rw [← hcr]; exact hnt)
  have hff : findFence (jsTrim (("```\n" ++ j ++ "\n```").data)) =
      some j.data := by
    rw [htrim, hdata, findFence, hmf]
    rfl
  simp only [stripCodeBlock, hff]
  apply String.ext
  exact hfix

/-! ### Merge engine: basic lemmas -/

theorem updateNodeList_id_of (f : GraphNode → GraphNode) (id : String) :
    ∀ l : List GraphNode,
      (∀ u, l.find? (fun n => n.id == id) = some u → f u = u) →
      updateNodeList f id l = l := by
  intro l
  induction l with
  | nil => intro _; rfl
  | cons u rest ih =>
    intro h
    rw [updateNodeList]
    by_cases hu : (u.id == id) = true
    · rw [if_pos hu]
      have := h u (by simp [List.find?_cons, hu])
      rw [this]
    · have hu' : (u.id == id) = false := by simpa using hu
      rw [if_neg hu]
      have := ih (fun v hv => h v (by simp [List.find?_cons, hu']; exact hv))
      rw [this]

theorem updateNodeList_eq_map (f : GraphNode → GraphNode) (id : String) :
    ∀ l : List GraphNode, (l.map (fun n => n.id)).Nodup →
      updateNodeList f id l =
        l.map (fun u => if u.id == id then f u else u) := by
  intro l
  induction l with
  | nil => intro _; rfl
  | cons u rest ih =>
    intro hnd
    rw [List.map_cons, List.nodup_cons] at hnd
    rw [updateNodeList, List.map_cons]
    by_cases hu : (u.id == id) = true
    · rw [if_pos hu, if_pos hu]
      have hid : u.id = id := by simpa using hu
      have hrest : rest.map (fun v => if v.id == id then f v else v) = rest := by
        have hpt : ∀ v ∈ rest, (if v.id == id then f v else v) = v := by
          intro v hv
          have hvne : (v.id == id) = false := by
            cases hb : (v.id == id) with
            | false => rfl
            | true =>
              exfalso
              have hveq : v.id = id := by simpa using hb
              apply hnd.1
              rw [hid, ← hveq]
              exact List.mem_map_of_mem _ hv
          rw [if_neg (by simp [hvne])]
        calc rest.map (fun v => if v.id == id then f v else v)
            = rest.map (fun v => v) := List.map_congr_left hpt
          _ = rest := List.map_id' rest
      rw [hrest]
    · rw [if_neg hu, if_neg hu, ih hnd.2]

theorem find?_self_of_nodup (flow : List ProposedNode) (n : ProposedNode)
    (hmem : n ∈ flow) (hnd : (flow.map (fun m => m.id)).Nodup) :
    flow.find? (fun m => m.id == n.id) = some n := by
  induction flow with
  | nil => cases hmem
  | cons m rest ih =>
    rw [List.map_cons, List.nodup_cons] at hnd
    rcases List.mem_cons.mp hmem with rfl | hmem'
    · rw [List.find?_cons_of_pos _ (by simp)]
    · have hne : (m.id == n.id) = false := by
        have : n.id ∈ rest.map (fun m => m.id) := List.mem_map_of_mem _ hmem'
        have hne' : m.id ≠ n.id := fun he => hnd.1 (he ▸ this)
        simpa using hne'
      rw [List.find?_cons_of_neg _ (by simp [hne])]
      exact ih hmem' hnd.2

theorem nodeExists_eq_contains (g : Graph) (id : String) :
    nodeExists g id = (g.nodes.map (fun n => n.id)).contains id := by
  suffices h : ∀ l : List GraphNode,
      (l.find? (fun n => n.id == id)).isSome =
        (l.map (fun n => n.id)).contains id from h g.nodes
  intro l
  induction l with
  | nil => rfl
  | cons u rest ih =>
    cases hb : (u.id == id) with
    | true =>
      have he : u.id = id := by simpa using hb
      simp [List.find?_cons, hb, he, List.contains_cons]
    | false =>
      have hne : u.id ≠ id := by simpa using hb
      have hb2 : (id == u.id) = false := by
        simpa using (Ne.symm hne)
      simp only [List.find?_cons, hb, List.map_cons, List.contains_cons, hb2,
        Bool.false_or]
      exact ih

theorem groupLinks_source (e : String → Bool) (n : ProposedNode) :
    ∀ l ∈ groupLinks e n, l.source = n.id := by
  intro l hl
  cases hw : n.wires with
  | none => rw [groupLinks, hw] at hl; cases hl
  | some ws =>
    rw [groupLinks, hw] at hl
    obtain ⟨pw, _, hl2⟩ := List.mem_flatMap.mp hl
    obtain ⟨t, _, rfl⟩ := List.mem_map.mp hl2
    rfl

theorem filter_flatMap {α β : Type} (l : List α) (f : α → List β) (p : β → Bool) :
    (l.flatMap f).filter p = l.flatMap (fun a => (f a).filter p) := by
  induction l with
  | nil => rfl
  | cons a t ih => simp [List.flatMap_cons, List.filter_append, ih]

theorem groupLinks_filter_target (e p : String → Bool) (n : ProposedNode) :
    (groupLinks e n).filter (fun l => p l.target) =
      groupLinks (fun t => e t && p t) n := by
  cases hw : n.wires with
  | none => simp [groupLinks, hw]
  | some ws =>
    simp only [groupLinks, hw]
    rw [filter_flatMap]
    congr 1
    funext pw
    rw [List.filter_map, List.filter_filter]
    refine congrArg _ (List.filter_congr ?_)
    intro t _
    simp [Bool.and_comm]

theorem groupLinks_filter_source_true {q : String → Bool} (e : String → Bool)
    (n : ProposedNode) (h : q n.id = true) :
    (groupLinks e n).filter (fun l => q l.source) = groupLinks e n := by
  apply List.filter_eq_self.mpr
  intro l hl
  rw [groupLinks_source e n l hl]
  exact h

theorem groupLinks_filter_source_false {q : String → Bool} (e : String → Bool)
    (n : ProposedNode) (h : q n.id = false) :
    (groupLinks e n).filter (fun l => q l.source) = [] := by
  apply List.filter_eq_nil_iff.mpr
  intro l hl
  rw [groupLinks_source e n l hl, h]
  exact Bool.false_ne_true

theorem foldl_fix_char :
    ∀ (ns : List ProposedNode) (g : Graph),
      (∀ n ∈ ns, ∃ u, lookupNode g n.id = some u ∧
        (∀ ws, n.wires = some ws → u.wires = some ws)) →
      ((ns.map (fun n => n.id)).Nodup) →
      (ns.foldl fixAddedNodeWires g).nodes = g.nodes ∧
      (ns.foldl fixAddedNodeWires g).links =
        g.links.filter (fun l => !((wiredIdsOf ns).contains l.source)) ++
          (ns.filter (fun n => n.wires.isSome)).flatMap
            (groupLinks (nodeExists g)) := by
  intro ns
  induction ns with
  | nil =>
    intro g _ _
    refine ⟨rfl, ?_⟩
    simp [wiredIdsOf]
  | cons n rest ih =>
    intro g hex hnd
    rw [List.map_cons, List.nodup_cons] at hnd
    obtain ⟨u, hu, huw⟩ := hex n (List.mem_cons_self _ _)
    rw [List.foldl_cons]
    cases hw : n.wires with
    | none =>
      have hfix : fixAddedNodeWires g n = g := by
        simp only [fixAddedNodeWires, hu, hw]
      rw [hfix]
      have hres := ih g (fun m hm => hex m (List.mem_cons_of_mem _ hm)) hnd.2
      refine ⟨hres.1, ?_⟩
      have h1 : wiredIdsOf (n :: rest) = wiredIdsOf rest := by
        simp [wiredIdsOf, List.filter_cons, hw]
      have h2 : (n :: rest).filter (fun m => m.wires.isSome) =
          rest.filter (fun m => m.wires.isSome) := by
        simp [List.filter_cons, hw]
      rw [hres.2, h1, h2]
    | some ws =>
      have hnoop : updateNodeList (fun v => { v with wires := some ws }) n.id
          g.nodes = g.nodes := by
        apply updateNodeList_id_of
        intro v hv
        have hvu : v = u := by
          rw [lookupNode] at hu
          rw [hu] at hv
          exact (Option.some.inj hv).symm
        subst hvu
        rw [← huw ws hw]
      have hfix : fixAddedNodeWires g n =
          (⟨g.nodes, g.links.filter (fun l => !(l.source == n.id)) ++
            groupLinks (nodeExists g) n⟩ : Graph) := by
        simp only [fixAddedNodeWires, hu, hw, rebuildLinks, hnoop]
      rw [hfix]
      have hres := ih
        ⟨g.nodes, g.links.filter (fun l => !(l.source == n.id)) ++
          groupLinks (nodeExists g) n⟩
        (fun m hm => hex m (List.mem_cons_of_mem _ hm)) hnd.2
      refine ⟨hres.1, ?_⟩
      rw [hres.2]
      have hexists : nodeExists
          (⟨g.nodes, g.links.filter (fun l => !(l.source == n.id)) ++
            groupLinks (nodeExists g) n⟩ : Graph) = nodeExists g := rfl
      rw [hexists, List.filter_append, List.filter_filter]
      have hwired : wiredIdsOf (n :: rest) = n.id :: wiredIdsOf rest := by
        simp [wiredIdsOf, List.filter_cons, hw]
      have hnotin : ((wiredIdsOf rest).contains n.id) = false := by
        cases hb : (wiredIdsOf rest).contains n.id with
        | false => rfl
        | true =>
          exfalso
          have hmem : n.id ∈ wiredIdsOf rest := List.elem_iff.mp hb
          apply hnd.1
          rw [wiredIdsOf] at hmem
          obtain ⟨m, hm, hmeq⟩ := List.mem_map.mp hmem
          exact hmeq ▸ List.mem_map_of_mem _ (List.mem_of_mem_filter hm)
      have hgfilter : (groupLinks (nodeExists g) n).filter
          (fun l => !((wiredIdsOf rest).contains l.source)) =
          groupLinks (nodeExists g) n :=
        groupLinks_filter_source_true
          (q := fun s => !((wiredIdsOf rest).contains s)) _ _ (by
            show (!((wiredIdsOf rest).contains n.id)) = true
            rw [hnotin]
            rfl)
      rw [hgfilter]
      have hpred : ∀ l : Link,
          (!((wiredIdsOf rest).contains l.source) && !(l.source == n.id)) =
            !((wiredIdsOf (n :: rest)).contains l.source) := by
        intro l
        rw [hwired, List.contains_cons, Bool.not_or, Bool.and_comm]
      have hfc : g.links.filter
          (fun l => !((wiredIdsOf rest).contains l.source) && !(l.source == n.id)) =
          g.links.filter (fun l => !((wiredIdsOf (n :: rest)).contains l.source)) :=
        List.filter_congr (fun l _ => hpred l)
      rw [hfc]
      have hflat : (n :: rest).filter (fun m => m.wires.isSome) =
          n :: rest.filter (fun m => m.wires.isSome) := by
        simp [List.filter_cons, hw]
      rw [hflat, List.flatMap_cons, List.append_assoc]

theorem applyNodePatch_id (n : ProposedNode) (u : GraphNode) :
    (applyNodePatch n u).id = u.id := rfl

theorem bool_and_rearrange (a b c d : Bool) :
    ((a && b) && (c && d)) = ((a && c) && (b && d)) := by
  cases a <;> cases b <;> cases c <;> cases d <;> rfl

theorem foldl_upd_char :
    ∀ (ns : List ProposedNode) (g : Graph),
      (∀ n ∈ ns, (lookupNode g n.id).isSome = true) →
      ((ns.map (fun n => n.id)).Nodup) →
      ((g.nodes.map (fun n => n.id)).Nodup) →
      (ns.foldl applyUpdate g).nodes =
        g.nodes.map (fun u =>
          match ns.find? (fun n => n.id == u.id) with
          | some n => applyNodePatch n u
          | none => u) ∧
      (ns.foldl applyUpdate g).links =
        g.links.filter (fun l => !((wiredIdsOf ns).contains l.source)) ++
          (ns.filter (fun n => n.wires.isSome)).flatMap
            (groupLinks (nodeExists g)) := by
  intro ns
  induction ns with
  | nil =>
    intro g _ _ _
    constructor
    · simp [List.find?_nil]
    · simp [wiredIdsOf]
  | cons n rest ih =>
    intro g hex hnd hgnd
    rw [List.map_cons, List.nodup_cons] at hnd
    obtain ⟨u, hu⟩ := Option.isSome_iff_exists.mp (hex n (List.mem_cons_self _ _))
    rw [List.foldl_cons]
    have hnodes1 : (applyUpdate g n).nodes =
        g.nodes.map (fun v => if v.id == n.id then applyNodePatch n v else v) := by
      cases hw : n.wires with
      | none =>
        simp only [applyUpdate, hu, hw]
        exact updateNodeList_eq_map _ _ g.nodes hgnd
      | some ws =>
        simp only [applyUpdate, hu, hw]
        exact updateNodeList_eq_map _ _ g.nodes hgnd
    have hids : (applyUpdate g n).nodes.map (fun v => v.id) =
        g.nodes.map (fun v => v.id) := by
      rw [hnodes1, List.map_map]
      apply List.map_congr_left
      intro v _
      by_cases hv : (v.id == n.id) = true
      · simp [Function.comp, hv, applyNodePatch_id]
      · simp [Function.comp, hv]
    have hexists : nodeExists (applyUpdate g n) = nodeExists g := by
      funext id
      rw [nodeExists_eq_contains, nodeExists_eq_contains, hids]
    have hex' : ∀ m ∈ rest, (lookupNode (applyUpdate g n) m.id).isSome = true := by
      intro m hm
      have h1 : nodeExists (applyUpdate g n) m.id = nodeExists g m.id := by
        rw [hexists]
      rw [nodeExists] at h1
      rw [h1]
      exact hex m (List.mem_cons_of_mem _ hm)
    have hgnd' : ((applyUpdate g n).nodes.map (fun v => v.id)).Nodup := by
      rw [hids]
      exact hgnd
    have hres := ih (applyUpdate g n) hex' hnd.2 hgnd'
    constructor
    · rw [hres.1, hnodes1, List.map_map]
      apply List.map_congr_left
      intro v _
      simp only [Function.comp]
      by_cases hv : (v.id == n.id) = true
      · have hveq : v.id = n.id := by simpa using hv
        have hfind : rest.find? (fun m => m.id == (applyNodePatch n v).id) =
            none := by
          apply List.find?_eq_none.mpr
          intro m hm
          rw [applyNodePatch_id]
          intro hmv
          apply hnd.1
          have hmid : m.id = v.id := by simpa using hmv
          rw [← hmid.trans hveq]
          exact List.mem_map_of_mem _ hm
        have hcons : (n :: rest).find? (fun m => m.id == v.id) = some n := by
          simp [List.find?_cons, show (n.id == v.id) = true by simpa using hveq.symm]
        rw [if_pos hv, hfind, hcons]
      · have hvne : v.id ≠ n.id := by simpa using hv
        have hcons : (n :: rest).find? (fun m => m.id == v.id) =
            rest.find? (fun m => m.id == v.id) := by
          simp [List.find?_cons, show (n.id == v.id) = false by
            simpa using (Ne.symm hvne)]
        rw [if_neg hv, hcons]
    · rw [hres.2, hexists]
      cases hw : n.wires with
      | none =>
        have hlinks1 : (applyUpdate g n).links = g.links := by
          simp only [applyUpdate, hu, hw]
        have h1 : wiredIdsOf (n :: rest) = wiredIdsOf rest := by
          simp [wiredIdsOf, List.filter_cons, hw]
        have h2 : (n :: rest).filter (fun m => m.wires.isSome) =
            rest.filter (fun m => m.wires.isSome) := by
          simp [List.filter_cons, hw]
        rw [hlinks1, h1, h2]
      | some ws =>
        have hlinks1 : (applyUpdate g n).links =
            g.links.filter (fun l => !(l.source == n.id)) ++
              groupLinks (nodeExists g) n := by
          simp only [applyUpdate, hu, hw, rebuildLinks]
        rw [hlinks1, List.filter_append, List.filter_filter]
        have hwired : wiredIdsOf (n :: rest) = n.id :: wiredIdsOf rest := by
          simp [wiredIdsOf, List.filter_cons, hw]
        have hnotin : ((wiredIdsOf rest).contains n.id) = false := by
          cases hb : (wiredIdsOf rest).contains n.id with
          | false => rfl
          | true =>
            exfalso
            have hmem : n.id ∈ wiredIdsOf rest := List.elem_iff.mp hb
            apply hnd.1
            rw [wiredIdsOf] at hmem
            obtain ⟨m, hm, hmeq⟩ := List.mem_map.mp hmem
            exact hmeq ▸ List.mem_map_of_mem _ (List.mem_of_mem_filter hm)
        have hgfilter : (groupLinks (nodeExists g) n).filter
            (fun l => !((wiredIdsOf rest).contains l.source)) =
            groupLinks (nodeExists g) n :=
          groupLinks_filter_source_true
            (q := fun s => !((wiredIdsOf rest).contains s)) _ _ (by
              show (!((wiredIdsOf rest).contains n.id)) = true
              rw [hnotin]
              rfl)
        rw [hgfilter]
        have hpred : ∀ l : Link,
            (!((wiredIdsOf rest).contains l.source) && !(l.source == n.id)) =
              !((wiredIdsOf (n :: rest)).contains l.source) := by
          intro l
          rw [hwired, List.contains_cons, Bool.not_or, Bool.and_comm]
        have hfc : g.links.filter
            (fun l => !((wiredIdsOf rest).contains l.source) &&
              !(l.source == n.id)) =
            g.links.filter
              (fun l => !((wiredIdsOf (n :: rest)).contains l.source)) :=
          List.filter_congr (fun l _ => hpred l)
        rw [hfc]
        have hflat : (n :: rest).filter (fun m => m.wires.isSome) =
            n :: rest.filter (fun m => m.wires.isSome) := by
          simp [List.filter_cons, hw]
        rw [hflat, List.flatMap_cons, List.append_assoc]

theorem foldl_remove_char (newIds : List String) :
    ∀ (ids : List String) (g : Graph),
      (ids.foldl (fun gr id => if newIds.contains id then gr
          else removeNodeFromGraph gr id) g).nodes =
        g.nodes.filter (fun n => !(ids.contains n.id) || newIds.contains n.id) ∧
      (ids.foldl (fun gr id => if newIds.contains id then gr
          else removeNodeFromGraph gr id) g).links =
        g.links.filter (fun l =>
          (!(ids.contains l.source) || newIds.contains l.source) &&
            (!(ids.contains l.target) || newIds.contains l.target)) := by
  intro ids
  induction ids with
  | nil =>
    intro g
    constructor <;> simp
  | cons id0 rest ih =>
    intro g
    rw [List.foldl_cons]
    by_cases h0 : newIds.contains id0 = true
    · rw [if_pos h0]
      have hkeep : ∀ x : String,
          (!(rest.contains x) || newIds.contains x) =
            (!((id0 :: rest).contains x) || newIds.contains x) := by
        intro x
        by_cases hx : (x == id0) = true
        · have hxe : x = id0 := by simpa using hx
          rw [hxe, h0]
          simp
        · have hx' : (x == id0) = false := by simpa using hx
          rw [List.contains_cons, hx']
          simp
      have hres := ih g
      constructor
      · rw [hres.1]
        exact List.filter_congr (fun v _ => hkeep v.id)
      · rw [hres.2]
        exact List.filter_congr (fun l _ => by rw [hkeep l.source, hkeep l.target])
    · have h0' : newIds.contains id0 = false := by simpa using h0
      rw [if_neg h0]
      have hkeep2 : ∀ x : String,
          ((!(x == id0)) && (!(rest.contains x) || newIds.contains x)) =
            (!((id0 :: rest).contains x) || newIds.contains x) := by
        intro x
        by_cases hx : (x == id0) = true
        · have hxe : x = id0 := by simpa using hx
          rw [List.contains_cons, hx, hxe, h0']
          simp
        · have hx' : (x == id0) = false := by simpa using hx
          rw [List.contains_cons, hx']
          simp
      have hres := ih (removeNodeFromGraph g id0)
      constructor
      · rw [hres.1]
        simp only [removeNodeFromGraph, List.filter_filter]
        exact List.filter_congr (fun v _ => by
          rw [Bool.and_comm]
          exact hkeep2 v.id)
      · rw [hres.2]
        simp only [removeNodeFromGraph, List.filter_filter]
        refine List.filter_congr (fun l _ => ?_)
        rw [← hkeep2 l.source, ← hkeep2 l.target]
        generalize (l.source == id0) = a
        generalize (l.target == id0) = b
        generalize (!(rest.contains l.source) || newIds.contains l.source) = c
        generalize (!(rest.contains l.target) || newIds.contains l.target) = d
        cases a <;> cases b <;> cases c <;> cases d <;> rfl

theorem mergedNodeOf_id (flow : List ProposedNode) (u : GraphNode) :
    (mergedNodeOf flow u).id = u.id := by
  rw [mergedNodeOf]
  cases flow.find? (fun n => n.id == u.id) <;> rfl

theorem mergedNodeOf_z (flow : List ProposedNode) (u : GraphNode) :
    (mergedNodeOf flow u).z = u.z := by
  rw [mergedNodeOf]
  cases flow.find? (fun n => n.id == u.id) <;> rfl

theorem contains_append_str (l₁ l₂ : List String) (x : String) :
    (l₁ ++ l₂).contains x = (l₁.contains x || l₂.contains x) := by
  induction l₁ with
  | nil => simp
  | cons a t ih => simp [List.contains_cons, ih, Bool.or_assoc]

theorem filter_map_id_nodup (flow : List ProposedNode) (p : ProposedNode → Bool)
    (h : (flow.map (fun n => n.id)).Nodup) :
    ((flow.filter p).map (fun n => n.id)).Nodup :=
  List.Nodup.sublist ((List.filter_sublist (p := p) flow).map _) h

theorem flow_id_inj {flow : List ProposedNode}
    (hfnd : (flow.map (fun n => n.id)).Nodup) {n m : ProposedNode}
    (hn : n ∈ flow) (hm : m ∈ flow) (hid : n.id = m.id) : n = m := by
  have h1 := find?_self_of_nodup flow n hn hfnd
  have h2 := find?_self_of_nodup flow m hm hfnd
  rw [hid] at h1
  rw [h1] at h2
  exact Option.some.inj h2

theorem toAdd_fresh {g : Graph} {z0 : String} {flow : List ProposedNode}
    (hcross : ∀ n ∈ flow, ∀ m ∈ g.nodes, m.id = n.id → m.z = z0) :
    ∀ n ∈ toAddOf g z0 flow, ¬ n.id ∈ g.nodes.map (fun v => v.id) := by
  intro n hn hmem
  obtain ⟨hflow, hpred⟩ := List.mem_filter.mp hn
  obtain ⟨m, hm, hmid⟩ := List.mem_map.mp hmem
  have hz : m.z = z0 := hcross n hflow m hm hmid
  have hcont : n.id ∈ containerIds g z0 := by
    rw [containerIds]
    rw [← hmid]
    exact List.mem_map_of_mem _ (List.mem_filter.mpr ⟨hm, by simp [hz]⟩)
  have htrue : (containerIds g z0).contains n.id = true := List.elem_iff.mpr hcont
  simp only [htrue] at hpred
  exact absurd hpred (by decide)

theorem contains_filter_str (l : List String) (p : String → Bool) (t : String) :
    (l.filter p).contains t = (l.contains t && p t) := by
  induction l with
  | nil => simp
  | cons a rest ih =>
    rw [List.filter_cons]
    cases hpa : p a with
    | true =>
      simp only [if_true]
      rw [List.contains_cons, List.contains_cons, ih]
      by_cases ht : (t == a) = true
      · have hta : t = a := by simpa using ht
        rw [ht, hta, hpa]
        simp
      · have ht' : (t == a) = false := by simpa using ht
        rw [ht']
        simp
    | false =>
      rw [if_neg (by simp [hpa])]
      rw [List.contains_cons, ih]
      by_cases ht : (t == a) = true
      · have hta : t = a := by simpa using ht
        rw [ht, hta, hpa]
        simp
      · have ht' : (t == a) = false := by simpa using ht
        rw [ht']
        simp

theorem flatMap_congr {α β : Type} {l : List α} {f f' : α → List β}
    (h : ∀ a ∈ l, f a = f' a) : l.flatMap f = l.flatMap f' := by
  induction l with
  | nil => rfl
  | cons a t ih =>
    rw [List.flatMap_cons, List.flatMap_cons, h a (List.mem_cons_self _ _),
      ih (fun b hb => h b (List.mem_cons_of_mem _ hb))]

theorem wiredIdsOf_append (l₁ l₂ : List ProposedNode) :
    wiredIdsOf (l₁ ++ l₂) = wiredIdsOf l₁ ++ wiredIdsOf l₂ := by
  rw [wiredIdsOf, List.filter_append, List.map_append]
  rfl

theorem mem_wiredIdsOf {ns : List ProposedNode} {x : String}
    (h : x ∈ wiredIdsOf ns) :
    ∃ m ∈ ns, m.wires.isSome = true ∧ m.id = x := by
  rw [wiredIdsOf] at h
  obtain ⟨m, hm, hmeq⟩ := List.mem_map.mp h
  obtain ⟨hmm, hmw⟩ := List.mem_filter.mp hm
  exact ⟨m, hmm, hmw, hmeq⟩

theorem keep_of_mem_flow {g : Graph} {z0 : String} {flow : List ProposedNode}
    {n : ProposedNode} (hn : n ∈ flow) : mergeKeepB g z0 flow n.id = true := by
  rw [mergeKeepB]
  have : (flow.map (fun m => m.id)).contains n.id = true :=
    List.elem_iff.mpr (List.mem_map_of_mem _ hn)
  rw [this]
  simp

theorem not_mem_toUpdate_of_mem_toAdd {g : Graph} {z0 : String}
    {flow : List ProposedNode} {n : ProposedNode}
    (hn : n ∈ toAddOf g z0 flow) {m : ProposedNode}
    (hm : m ∈ toUpdateOf g z0 flow) : ¬ m.id = n.id := by
  intro hid
  obtain ⟨_, hnp⟩ := List.mem_filter.mp hn
  obtain ⟨_, hmp⟩ := List.mem_filter.mp hm
  rw [hid] at hmp
  simp only [hmp] at hnp
  exact absurd hnp (by decide)

theorem merge_stage2_char (g : Graph) (z0 : String) (flow : List ProposedNode)
    (hfnd : (flow.map (fun n => n.id)).Nodup)
    (hcross : ∀ n ∈ flow, ∀ m ∈ g.nodes, m.id = n.id → m.z = z0) :
    ((toAddOf g z0 flow).foldl fixAddedNodeWires
        (if (toAddOf g z0 flow).isEmpty then g
          else importNodes g z0 (toAddOf g z0 flow))).nodes =
      g.nodes ++ (toAddOf g z0 flow).map (importNode z0) ∧
    ((toAddOf g z0 flow).foldl fixAddedNodeWires
        (if (toAddOf g z0 flow).isEmpty then g
          else importNodes g z0 (toAddOf g z0 flow))).links =
      g.links.filter
          (fun l => !((wiredIdsOf (toAddOf g z0 flow)).contains l.source)) ++
        ((toAddOf g z0 flow).filter (fun n => n.wires.isSome)).flatMap
          (groupLinks (nodeExists
            (⟨g.nodes ++ (toAddOf g z0 flow).map (importNode z0), g.links⟩ :
              Graph))) := by
  have hAnodup : ((toAddOf g z0 flow).map (fun n => n.id)).Nodup :=
    filter_map_id_nodup flow _ hfnd
  have hfresh := toAdd_fresh hcross
  have hg1 :
      ((if (toAddOf g z0 flow).isEmpty then g
          else importNodes g z0 (toAddOf g z0 flow)) : Graph).nodes =
        g.nodes ++ (toAddOf g z0 flow).map (importNode z0) ∧
      ((if (toAddOf g z0 flow).isEmpty then g
          else importNodes g z0 (toAddOf g z0 flow)) : Graph).links =
        g.links ++ (toAddOf g z0 flow).flatMap (groupLinks (nodeExists
          (⟨g.nodes ++ (toAddOf g z0 flow).map (importNode z0), g.links⟩ :
            Graph))) := by
    by_cases he : (toAddOf g z0 flow).isEmpty = true
    · have hnil : toAddOf g z0 flow = [] := by
        cases hc : toAddOf g z0 flow with
        | nil => rfl
        | cons a t => rw [hc] at he; exact absurd he (by simp [List.isEmpty])
      rw [if_pos he, hnil]
      simp
    · rw [if_neg he]
      exact ⟨rfl, rfl⟩
  have hlookA : ∀ n ∈ toAddOf g z0 flow,
      lookupNode (if (toAddOf g z0 flow).isEmpty then g
        else importNodes g z0 (toAddOf g z0 flow)) n.id =
        some (importNode z0 n) := by
    intro n hn
    rw [lookupNode, hg1.1, List.find?_append]
    have h1 : g.nodes.find? (fun v => v.id == n.id) = none := by
      apply List.find?_eq_none.mpr
      intro m hm hb
      have hmid : m.id = n.id := by simpa using hb
      exact hfresh n hn (hmid ▸ List.mem_map_of_mem _ hm)
    rw [h1, List.find?_map]
    have h2 : (toAddOf g z0 flow).find?
        ((fun v => v.id == n.id) ∘ importNode z0) = some n := by
      have hco : ((fun v : GraphNode => v.id == n.id) ∘ importNode z0) =
          (fun m : ProposedNode => m.id == n.id) := rfl
      rw [hco]
      exact find?_self_of_nodup _ n hn hAnodup
    rw [h2]
    rfl
  have hfix := foldl_fix_char (toAddOf g z0 flow)
    (if (toAddOf g z0 flow).isEmpty then g
      else importNodes g z0 (toAddOf g z0 flow))
    (fun n hn => ⟨importNode z0 n, hlookA n hn, fun _ hws => hws⟩)
    hAnodup
  have hexeq : nodeExists (if (toAddOf g z0 flow).isEmpty then g
      else importNodes g z0 (toAddOf g z0 flow)) =
      nodeExists (⟨g.nodes ++ (toAddOf g z0 flow).map (importNode z0),
        g.links⟩ : Graph) := by
    funext id
    rw [nodeExists_eq_contains, nodeExists_eq_contains, hg1.1]
  refine ⟨by rw [hfix.1, hg1.1], ?_⟩
  rw [hfix.2, hexeq, hg1.2, List.filter_append]
  have hauto : ((toAddOf g z0 flow).flatMap (groupLinks (nodeExists
      (⟨g.nodes ++ (toAddOf g z0 flow).map (importNode z0), g.links⟩ :
        Graph)))).filter
      (fun l => !((wiredIdsOf (toAddOf g z0 flow)).contains l.source)) = [] := by
    rw [filter_flatMap]
    apply List.flatMap_eq_nil_iff.mpr
    intro n hn
    cases hw : n.wires with
    | none => simp [groupLinks, hw]
    | some ws =>
      apply groupLinks_filter_source_false
        (q := fun s => !((wiredIdsOf (toAddOf g z0 flow)).contains s))
      have hmem : n.id ∈ wiredIdsOf (toAddOf g z0 flow) := by
        rw [wiredIdsOf]
        exact List.mem_map_of_mem _
          (List.mem_filter.mpr ⟨hn, by simp [hw]⟩)
      show (!((wiredIdsOf (toAddOf g z0 flow)).contains n.id)) = false
      have hcontains : (wiredIdsOf (toAddOf g z0 flow)).contains n.id = true :=
        List.elem_iff.mpr hmem
      rw [hcontains]
      rfl
  rw [hauto, List.append_nil]

theorem imp_map_ids (z0 : String) (ns : List ProposedNode) :
    (ns.map (importNode z0)).map (fun v => v.id) = ns.map (fun n => n.id) := by
  rw [List.map_map]
  rfl

theorem merge_stage3_char (g : Graph) (z0 : String) (flow : List ProposedNode)
    (hgnd : (g.nodes.map (fun n => n.id)).Nodup)
    (hfnd : (flow.map (fun n => n.id)).Nodup)
    (hcross : ∀ n ∈ flow, ∀ m ∈ g.nodes, m.id = n.id → m.z = z0) :
    ((toUpdateOf g z0 flow).foldl applyUpdate
        ((toAddOf g z0 flow).foldl fixAddedNodeWires
          (if (toAddOf g z0 flow).isEmpty then g
            else importNodes g z0 (toAddOf g z0 flow)))).nodes =
      (g.nodes ++ (toAddOf g z0 flow).map (importNode z0)).map
        (fun u => match (toUpdateOf g z0 flow).find? (fun n => n.id == u.id) with
          | some n => applyNodePatch n u
          | none => u) ∧
    ((toUpdateOf g z0 flow).foldl applyUpdate
        ((toAddOf g z0 flow).foldl fixAddedNodeWires
          (if (toAddOf g z0 flow).isEmpty then g
            else importNodes g z0 (toAddOf g z0 flow)))).links =
      g.links.filter (fun l =>
          !((wiredIdsOf (toUpdateOf g z0 flow)).contains l.source) &&
            !((wiredIdsOf (toAddOf g z0 flow)).contains l.source)) ++
        ((toAddOf g z0 flow).filter (fun n => n.wires.isSome)).flatMap
          (groupLinks (nodeExists
            (⟨g.nodes ++ (toAddOf g z0 flow).map (importNode z0), g.links⟩ :
              Graph))) ++
        ((toUpdateOf g z0 flow).filter (fun n => n.wires.isSome)).flatMap
          (groupLinks (nodeExists
            (⟨g.nodes ++ (toAddOf g z0 flow).map (importNode z0), g.links⟩ :
              Graph))) := by
  have hs2 := merge_stage2_char g z0 flow hfnd hcross
  have hAnodup : ((toAddOf g z0 flow).map (fun n => n.id)).Nodup :=
    filter_map_id_nodup flow _ hfnd
  have hUnodup : ((toUpdateOf g z0 flow).map (fun n => n.id)).Nodup :=
    filter_map_id_nodup flow _ hfnd
  have hfresh := toAdd_fresh hcross
  have hG2ids : ((toAddOf g z0 flow).foldl fixAddedNodeWires
      (if (toAddOf g z0 flow).isEmpty then g
        else importNodes g z0 (toAddOf g z0 flow))).nodes.map (fun v => v.id) =
      g.nodes.map (fun n => n.id) ++ (toAddOf g z0 flow).map (fun n => n.id) := by
    rw [hs2.1, List.map_append, imp_map_ids]
  have hG2nodup : (((toAddOf g z0 flow).foldl fixAddedNodeWires
      (if (toAddOf g z0 flow).isEmpty then g
        else importNodes g z0 (toAddOf g z0 flow))).nodes.map
        (fun v => v.id)).Nodup := by
    rw [hG2ids]
    refine List.Nodup.append hgnd hAnodup ?_
    intro x hx hxA
    obtain ⟨n, hn, hneq⟩ := List.mem_map.mp hxA
    exact hfresh n hn (hneq ▸ hx)
  have hpre : ∀ n ∈ toUpdateOf g z0 flow,
      (lookupNode ((toAddOf g z0 flow).foldl fixAddedNodeWires
        (if (toAddOf g z0 flow).isEmpty then g
          else importNodes g z0 (toAddOf g z0 flow))) n.id).isSome = true := by
    intro n hn
    obtain ⟨hnf, hnp⟩ := List.mem_filter.mp hn
    have hmemEx : n.id ∈ containerIds g z0 := List.elem_iff.mp hnp
    have hgmem : n.id ∈ g.nodes.map (fun n => n.id) := by
      rw [containerIds] at hmemEx
      obtain ⟨m, hm, hmeq⟩ := List.mem_map.mp hmemEx
      exact hmeq ▸ List.mem_map_of_mem _ (List.mem_of_mem_filter hm)
    show nodeExists _ n.id = true
    rw [nodeExists_eq_contains, hG2ids]
    exact List.elem_iff.mpr (List.mem_append_left _ hgmem)
  have hupd := foldl_upd_char (toUpdateOf g z0 flow) _ hpre hUnodup hG2nodup
  have hexeq : nodeExists ((toAddOf g z0 flow).foldl fixAddedNodeWires
      (if (toAddOf g z0 flow).isEmpty then g
        else importNodes g z0 (toAddOf g z0 flow))) =
      nodeExists (⟨g.nodes ++ (toAddOf g z0 flow).map (importNode z0),
        g.links⟩ : Graph) := by
    funext id
    rw [nodeExists_eq_contains, nodeExists_eq_contains, hG2ids]
    congr 1
    show _ = (g.nodes ++ (toAddOf g z0 flow).map (importNode z0)).map
      (fun v => v.id)
    rw [List.map_append, imp_map_ids]
  constructor
  · rw [hupd.1, hs2.1]
  · rw [hupd.2, hexeq, hs2.2, List.filter_append, List.filter_filter]
    have haddf : ((((toAddOf g z0 flow).filter (fun n => n.wires.isSome)).flatMap
        (groupLinks (nodeExists
          (⟨g.nodes ++ (toAddOf g z0 flow).map (importNode z0), g.links⟩ :
            Graph)))).filter
        (fun l => !((wiredIdsOf (toUpdateOf g z0 flow)).contains l.source))) =
        ((toAddOf g z0 flow).filter (fun n => n.wires.isSome)).flatMap
          (groupLinks (nodeExists
            (⟨g.nodes ++ (toAddOf g z0 flow).map (importNode z0), g.links⟩ :
              Graph))) := by
      rw [filter_flatMap]
      apply flatMap_congr
      intro n hn
      apply groupLinks_filter_source_true
        (q := fun s => !((wiredIdsOf (toUpdateOf g z0 flow)).contains s))
      show (!((wiredIdsOf (toUpdateOf g z0 flow)).contains n.id)) = true
      have hfalse : (wiredIdsOf (toUpdateOf g z0 flow)).contains n.id = false := by
        cases hb : (wiredIdsOf (toUpdateOf g z0 flow)).contains n.id with
        | false => rfl
        | true =>
          exfalso
          obtain ⟨m, hmU, _, hmid⟩ := mem_wiredIdsOf (List.elem_iff.mp hb)
          exact not_mem_toUpdate_of_mem_toAdd
            (List.mem_of_mem_filter hn) hmU hmid
      rw [hfalse]
      rfl
    rw [haddf, List.append_assoc]

theorem canon_map_ids (g : Graph) (flow : List ProposedNode) :
    (g.nodes.map (mergedNodeOf flow)).map (fun v => v.id) =
      g.nodes.map (fun n => n.id) := by
  rw [List.map_map]
  apply List.map_congr_left
  intro u _
  exact mergedNodeOf_id flow u

theorem merged_ids_eq (g : Graph) (z0 : String) (flow : List ProposedNode) :
    mergedIdsOf g z0 flow =
      (g.nodes.map (fun n => n.id)).filter (fun x => mergeKeepB g z0 flow x) ++
        (toAddOf g z0 flow).map (fun n => n.id) := by
  rw [mergedIdsOf, canonNodes, List.map_append, imp_map_ids]
  congr 1
  rw [← canon_map_ids g flow]
  conv_rhs => rw [List.filter_map]
  rfl

theorem exists_keep_eq (g : Graph) (z0 : String) (flow : List ProposedNode) :
    ∀ t, ((nodeExists (⟨g.nodes ++ (toAddOf g z0 flow).map (importNode z0),
        g.links⟩ : Graph) t) && mergeKeepB g z0 flow t) =
      (mergedIdsOf g z0 flow).contains t := by
  intro t
  rw [nodeExists_eq_contains]
  show ((((g.nodes ++ (toAddOf g z0 flow).map (importNode z0)).map
      (fun v => v.id)).contains t) && mergeKeepB g z0 flow t) = _
  rw [List.map_append, imp_map_ids, contains_append_str, merged_ids_eq,
    contains_append_str, contains_filter_str]
  by_cases hA : ((toAddOf g z0 flow).map (fun n => n.id)).contains t = true
  · have hkp : mergeKeepB g z0 flow t = true := by
      obtain ⟨n, hn, hneq⟩ := List.mem_map.mp (List.elem_iff.mp hA)
      exact hneq ▸ keep_of_mem_flow (List.mem_of_mem_filter hn)
    rw [hA, hkp]
    simp
  · have hA' : ((toAddOf g z0 flow).map (fun n => n.id)).contains t = false := by
      simpa using hA
    rw [hA']
    simp

theorem mergeFlow_char (g : Graph) (z0 : String) (flow : List ProposedNode)
    (hwf : MergeWF g z0 flow) :
    (mergeFlow g z0 flow).nodes = canonNodes g z0 flow ∧
    (mergeFlow g z0 flow).links = canonLinks g z0 flow := by
  obtain ⟨hgnd, hfnd, hcross, _⟩ := hwf
  have hs3 := merge_stage3_char g z0 flow hgnd hfnd hcross
  have hmer : mergeFlow g z0 flow =
      (containerIds g z0).foldl
        (fun gr id => if (flow.map (fun n => n.id)).contains id then gr
          else removeNodeFromGraph gr id)
        ((toUpdateOf g z0 flow).foldl applyUpdate
          ((toAddOf g z0 flow).foldl fixAddedNodeWires
            (if (toAddOf g z0 flow).isEmpty then g
              else importNodes g z0 (toAddOf g z0 flow)))) := rfl
  have hrem := foldl_remove_char (flow.map (fun n => n.id)) (containerIds g z0)
    ((toUpdateOf g z0 flow).foldl applyUpdate
      ((toAddOf g z0 flow).foldl fixAddedNodeWires
        (if (toAddOf g z0 flow).isEmpty then g
          else importNodes g z0 (toAddOf g z0 flow))))
  have hUnodup : ((toUpdateOf g z0 flow).map (fun n => n.id)).Nodup :=
    filter_map_id_nodup flow _ hfnd
  have hmapeq : g.nodes.map (fun u =>
      match (toUpdateOf g z0 flow).find? (fun n => n.id == u.id) with
      | some n => applyNodePatch n u
      | none => u) = g.nodes.map (mergedNodeOf flow) := by
    apply List.map_congr_left
    intro u hu
    cases hf : flow.find? (fun n => n.id == u.id) with
    | none =>
      have hU : (toUpdateOf g z0 flow).find? (fun n => n.id == u.id) = none := by
        apply List.find?_eq_none.mpr
        intro m hm hb
        exact List.find?_eq_none.mp hf m (List.mem_of_mem_filter hm) hb
      rw [hU, mergedNodeOf, hf]
    | some m =>
      have hmflow : m ∈ flow := List.mem_of_find?_eq_some hf
      have hmid : m.id = u.id := by simpa using List.find?_some hf
      have huz : u.z = z0 := hcross m hmflow u hu hmid.symm
      have huex : u.id ∈ containerIds g z0 := by
        rw [containerIds]
        exact List.mem_map_of_mem _ (List.mem_filter.mpr ⟨hu, by simp [huz]⟩)
      have hmU : m ∈ toUpdateOf g z0 flow := by
        refine List.mem_filter.mpr ⟨hmflow, ?_⟩
        show (containerIds g z0).contains m.id = true
        rw [hmid]
        exact List.elem_iff.mpr huex
      have hUfind : (toUpdateOf g z0 flow).find? (fun n => n.id == u.id) =
          some m := by
        have h1 := find?_self_of_nodup _ m hmU hUnodup
        rw [hmid] at h1
        exact h1
      rw [hUfind, mergedNodeOf, hf]
  have himp_map : (((toAddOf g z0 flow).map (importNode z0)).map (fun u =>
      match (toUpdateOf g z0 flow).find? (fun n => n.id == u.id) with
      | some n => applyNodePatch n u
      | none => u)) = (toAddOf g z0 flow).map (importNode z0) := by
    rw [List.map_map]
    apply List.map_congr_left
    intro n hn
    show (match (toUpdateOf g z0 flow).find?
        (fun m => m.id == (importNode z0 n).id) with
      | some m => applyNodePatch m (importNode z0 n)
      | none => importNode z0 n) = importNode z0 n
    have hU : (toUpdateOf g z0 flow).find?
        (fun m => m.id == (importNode z0 n).id) = none := by
      apply List.find?_eq_none.mpr
      intro m hm hb
      have hmid : m.id = n.id := by simpa [importNode] using hb
      exact not_mem_toUpdate_of_mem_toAdd hn hm hmid
    rw [hU]
  have himp_filter : (((toAddOf g z0 flow).map (importNode z0)).filter
      (fun n => !((containerIds g z0).contains n.id) ||
        (flow.map (fun n => n.id)).contains n.id)) =
      (toAddOf g z0 flow).map (importNode z0) := by
    apply List.filter_eq_self.mpr
    intro u hu
    obtain ⟨n, hn, rfl⟩ := List.mem_map.mp hu
    show mergeKeepB g z0 flow (importNode z0 n).id = true
    exact keep_of_mem_flow (List.mem_of_mem_filter hn)
  have hfun : (fun t => nodeExists
      (⟨g.nodes ++ (toAddOf g z0 flow).map (importNode z0), g.links⟩ :
        Graph) t &&
      (!((containerIds g z0).contains t) ||
        (flow.map (fun n => n.id)).contains t)) =
      (fun t => (mergedIdsOf g z0 flow).contains t) := by
    funext t
    exact exists_keep_eq g z0 flow t
  constructor
  · rw [hmer, hrem.1, hs3.1, List.map_append, List.filter_append, himp_map,
      hmapeq, himp_filter]
    rfl
  · rw [hmer, hrem.2, hs3.2, List.filter_append, List.filter_append]
    have hfront : ((g.links.filter (fun l =>
        !((wiredIdsOf (toUpdateOf g z0 flow)).contains l.source) &&
          !((wiredIdsOf (toAddOf g z0 flow)).contains l.source))).filter
        (fun l => (!((containerIds g z0).contains l.source) ||
            (flow.map (fun n => n.id)).contains l.source) &&
          (!((containerIds g z0).contains l.target) ||
            (flow.map (fun n => n.id)).contains l.target))) =
        g.links.filter (fun l =>
          !((wiredIdsOf (toAddOf g z0 flow ++ toUpdateOf g z0 flow)).contains
              l.source) &&
            mergeKeepB g z0 flow l.source && mergeKeepB g z0 flow l.target) := by
      rw [List.filter_filter]
      apply List.filter_congr
      intro l _
      simp only [mergeKeepB, wiredIdsOf_append, contains_append_str]
      generalize (wiredIdsOf (toAddOf g z0 flow)).contains l.source = a
      generalize (wiredIdsOf (toUpdateOf g z0 flow)).contains l.source = b
      generalize (containerIds g z0).contains l.source = c
      generalize (flow.map (fun n => n.id)).contains l.source = d
      generalize (containerIds g z0).contains l.target = e
      generalize (flow.map (fun n => n.id)).contains l.target = f
      cases a <;> cases b <;> cases c <;> cases d <;> cases e <;> cases f <;> rfl
    have hgroup : ∀ (ns : List ProposedNode), (∀ n ∈ ns, n ∈ flow) →
        ((ns.filter (fun n => n.wires.isSome)).flatMap
          (groupLinks (nodeExists
            (⟨g.nodes ++ (toAddOf g z0 flow).map (importNode z0), g.links⟩ :
              Graph)))).filter
          (fun l => (!((containerIds g z0).contains l.source) ||
              (flow.map (fun n => n.id)).contains l.source) &&
            (!((containerIds g z0).contains l.target) ||
              (flow.map (fun n => n.id)).contains l.target)) =
          (ns.filter (fun n => n.wires.isSome)).flatMap
            (groupLinks (fun t => (mergedIdsOf g z0 flow).contains t)) := by
      intro ns hsub
      rw [filter_flatMap]
      apply flatMap_congr
      intro n hn
      have hkeep₁ : (!((containerIds g z0).contains n.id) ||
          (flow.map (fun m => m.id)).contains n.id) = true :=
        keep_of_mem_flow (hsub n (List.mem_of_mem_filter hn))
      have hstep1 : ((groupLinks (nodeExists
          (⟨g.nodes ++ (toAddOf g z0 flow).map (importNode z0), g.links⟩ :
            Graph)) n).filter
          (fun l => (!((containerIds g z0).contains l.source) ||
              (flow.map (fun n => n.id)).contains l.source) &&
            (!((containerIds g z0).contains l.target) ||
              (flow.map (fun n => n.id)).contains l.target))) =
          ((groupLinks (nodeExists
            (⟨g.nodes ++ (toAddOf g z0 flow).map (importNode z0), g.links⟩ :
              Graph)) n).filter
            (fun l => !((containerIds g z0).contains l.target) ||
              (flow.map (fun n => n.id)).contains l.target)) := by
        apply List.filter_congr
        intro l hl
        have hsrc := groupLinks_source _ n l hl
        show ((!((containerIds g z0).contains l.source) ||
            (flow.map (fun n => n.id)).contains l.source) &&
          (!((containerIds g z0).contains l.target) ||
            (flow.map (fun n => n.id)).contains l.target)) =
          (!((containerIds g z0).contains l.target) ||
            (flow.map (fun n => n.id)).contains l.target)
        rw [hsrc, hkeep₁, Bool.true_and]
      rw [hstep1, groupLinks_filter_target
        (nodeExists (⟨g.nodes ++ (toAddOf g z0 flow).map (importNode z0),
          g.links⟩ : Graph))
        (fun t => !((containerIds g z0).contains t) ||
          (flow.map (fun n => n.id)).contains t) n]
      exact congrFun (congrArg groupLinks hfun) n
    rw [hfront,
      hgroup (toAddOf g z0 flow) (fun n hn => List.mem_of_mem_filter hn),
      hgroup (toUpdateOf g z0 flow) (fun n hn => List.mem_of_mem_filter hn),
      canonLinks, List.filter_append, List.flatMap_append, List.append_assoc]

theorem setProp_find_self (ps : List (String × String)) (k v : String) :
    (setProp ps k v).find? (fun e => e.1 == k) = some (k, v) := by
  induction ps with
  | nil => simp [setProp]
  | cons e rest ih =>
    rw [setProp]
    by_cases he : (e.1 == k) = true
    · rw [if_pos he]
      simp [List.find?_cons]
    · rw [if_neg he]
      have he' : (e.1 == k) = false := by simpa using he
      simp only [List.find?_cons, he', cond_false]
      exact ih

theorem setProp_find_other (ps : List (String × String)) (k v k' : String)
    (h : (k == k') = false) :
    (setProp ps k v).find? (fun e => e.1 == k') =
      ps.find? (fun e => e.1 == k') := by
  induction ps with
  | nil => simp [setProp, List.find?_cons, h]
  | cons e rest ih =>
    rw [setProp]
    by_cases he : (e.1 == k) = true
    · rw [if_pos he]
      have he1 : e.1 = k := by simpa using he
      simp only [List.find?_cons, h, cond_false, he1]
    · rw [if_neg he]
      simp only [List.find?_cons]
      cases hq : (e.1 == k') with
      | true => rfl
      | false => exact ih

theorem setProp_eq_self (ps : List (String × String)) (k v : String)
    (h : ps.find? (fun e => e.1 == k) = some (k, v)) : setProp ps k v = ps := by
  induction ps with
  | nil => simp [List.find?_nil] at h
  | cons e rest ih =>
    rw [setProp]
    by_cases he : (e.1 == k) = true
    · rw [if_pos he]
      simp only [List.find?_cons, he, cond_true, Option.some.injEq] at h
      rw [← h]
    · rw [if_neg he]
      have he' : (e.1 == k) = false := by simpa using he
      simp only [List.find?_cons, he', cond_false] at h
      rw [ih h]

theorem prop_find_self_of_nodup (np : List (String × String))
    (hnd : (np.map Prod.fst).Nodup) :
    ∀ kv ∈ np, np.find? (fun e => e.1 == kv.1) = some kv := by
  induction np with
  | nil => intro kv hkv; cases hkv
  | cons e rest ih =>
    rw [List.map_cons, List.nodup_cons] at hnd
    intro kv hkv
    rcases List.mem_cons.mp hkv with rfl | hmem
    · rw [List.find?_cons_of_pos _ (by simp)]
    · have hne : (e.1 == kv.1) = false := by
        have : kv.1 ∈ rest.map Prod.fst := List.mem_map_of_mem _ hmem
        have hne' : e.1 ≠ kv.1 := fun he => hnd.1 (he ▸ this)
        simpa using hne'
      rw [List.find?_cons_of_neg _ (by simp [hne])]
      exact ih hnd.2 kv hmem

theorem overwrite_find_not_mem (np : List (String × String)) :
    ∀ (old : List (String × String)) (k : String),
      (∀ p ∈ np, (p.1 == k) = false) →
      (overwriteProps old np).find? (fun e => e.1 == k) =
        old.find? (fun e => e.1 == k) := by
  induction np with
  | nil => intro old k _; rfl
  | cons kv rest ih =>
    intro old k h
    show (overwriteProps (setProp old kv.1 kv.2) rest).find? _ = _
    rw [ih (setProp old kv.1 kv.2) k
      (fun p hp => h p (List.mem_cons_of_mem _ hp))]
    exact setProp_find_other old kv.1 kv.2 k (h kv (List.mem_cons_self _ _))

theorem overwrite_find_mem (np : List (String × String)) :
    ∀ (old : List (String × String)), (np.map Prod.fst).Nodup →
      ∀ kv ∈ np, (overwriteProps old np).find? (fun e => e.1 == kv.1) =
        some kv := by
  induction np with
  | nil => intro old _ kv hkv; cases hkv
  | cons e rest ih =>
    intro old hnd kv hkv
    rw [List.map_cons, List.nodup_cons] at hnd
    rcases List.mem_cons.mp hkv with rfl | hmem
    · show (overwriteProps (setProp old kv.1 kv.2) rest).find? _ = _
      rw [overwrite_find_not_mem rest (setProp old kv.1 kv.2) kv.1 ?_]
      · exact setProp_find_self old kv.1 kv.2
      · intro p hp
        have : p.1 ∈ rest.map Prod.fst := List.mem_map_of_mem _ hp
        have hne : p.1 ≠ kv.1 := fun he => hnd.1 (he ▸ this)
        simpa using hne
    · show (overwriteProps (setProp old e.1 e.2) rest).find? _ = _
      exact ih (setProp old e.1 e.2) hnd.2 kv hmem

theorem overwrite_eq_self (np : List (String × String))
    (q : List (String × String))
    (h : ∀ kv ∈ np, q.find? (fun e => e.1 == kv.1) = some kv) :
    overwriteProps q np = q := by
  induction np with
  | nil => rfl
  | cons kv rest ih =>
    show overwriteProps (setProp q kv.1 kv.2) rest = q
    rw [setProp_eq_self q kv.1 kv.2 (h kv (List.mem_cons_self _ _))]
    exact ih (fun e he => h e (List.mem_cons_of_mem _ he))

theorem overwriteProps_idem (old np : List (String × String))
    (hnd : (np.map Prod.fst).Nodup) :
    overwriteProps (overwriteProps old np) np = overwriteProps old np :=
  overwrite_eq_self np _ (fun kv hkv => overwrite_find_mem np old hnd kv hkv)

theorem applyNodePatch_idem (n : ProposedNode) (u : GraphNode)
    (hnd : (n.props.map Prod.fst).Nodup) :
    applyNodePatch n (applyNodePatch n u) = applyNodePatch n u := by
  cases hx : n.x <;> cases hy : n.y <;> cases hw : n.wires <;>
    simp [applyNodePatch, hx, hy, hw, overwriteProps_idem u.props n.props hnd]

theorem applyNodePatch_import (z0 : String) (n : ProposedNode)
    (hnd : (n.props.map Prod.fst).Nodup) :
    applyNodePatch n (importNode z0 n) = importNode z0 n := by
  have hself : overwriteProps n.props n.props = n.props :=
    overwrite_eq_self n.props n.props (prop_find_self_of_nodup n.props hnd)
  cases hx : n.x <;> cases hy : n.y <;> cases hw : n.wires <;>
    simp [applyNodePatch, importNode, hx, hy, hw, hself]

theorem mergedNodeOf_idem (flow : List ProposedNode)
    (hpnd : ∀ n ∈ flow, (n.props.map Prod.fst).Nodup) (u : GraphNode) :
    mergedNodeOf flow (mergedNodeOf flow u) = mergedNodeOf flow u := by
  cases hf : flow.find? (fun n => n.id == u.id) with
  | none =>
    have hval : mergedNodeOf flow u = u := by rw [mergedNodeOf, hf]
    rw [hval]
    exact hval
  | some m =>
    have hval : mergedNodeOf flow u = applyNodePatch m u := by
      rw [mergedNodeOf, hf]
    rw [hval, mergedNodeOf, applyNodePatch_id, hf]
    exact applyNodePatch_idem m u (hpnd m (List.mem_of_find?_eq_some hf))

theorem mergedIds_nodup (g : Graph) (z0 : String) (flow : List ProposedNode)
    (hgnd : (g.nodes.map (fun n => n.id)).Nodup)
    (hfnd : (flow.map (fun n => n.id)).Nodup)
    (hcross : ∀ n ∈ flow, ∀ m ∈ g.nodes, m.id = n.id → m.z = z0) :
    (mergedIdsOf g z0 flow).Nodup := by
  rw [merged_ids_eq]
  refine List.Nodup.append (List.Nodup.filter _ hgnd)
    (filter_map_id_nodup flow _ hfnd) ?_
  intro x hx hxA
  obtain ⟨n, hn, hneq⟩ := List.mem_map.mp hxA
  exact toAdd_fresh hcross n hn (hneq ▸ List.mem_of_mem_filter hx)

theorem merged_container_mem (g : Graph) (z0 : String) (flow : List ProposedNode)
    (hwf : MergeWF g z0 flow) :
    ∀ x, (x ∈ ((mergeFlow g z0 flow).nodes.filter
        (fun v => v.z == z0)).map (fun v => v.id)) ↔
      x ∈ flow.map (fun n => n.id) := by
  obtain ⟨hgnd, hfnd, hcross, hpnd⟩ := hwf
  have hchar := mergeFlow_char g z0 flow ⟨hgnd, hfnd, hcross, hpnd⟩
  intro x
  rw [hchar.1]
  constructor
  · intro hx
    obtain ⟨v, hv, rfl⟩ := List.mem_map.mp hx
    obtain ⟨hvc, hvz⟩ := List.mem_filter.mp hv
    have hvz' : v.z = z0 := by simpa using hvz
    rw [canonNodes] at hvc
    rcases List.mem_append.mp hvc with hvl | hvr
    · obtain ⟨hvm, hkp⟩ := List.mem_filter.mp hvl
      obtain ⟨w, hw, rfl⟩ := List.mem_map.mp hvm
      have hwz : w.z = z0 := by rw [← mergedNodeOf_z flow w]; exact hvz'
      have hwc : (containerIds g z0).contains w.id = true := by
        apply List.elem_iff.mpr
        rw [containerIds]
        exact List.mem_map_of_mem _ (List.mem_filter.mpr ⟨hw, by simp [hwz]⟩)
      rw [mergeKeepB, mergedNodeOf_id, hwc] at hkp
      simp only [Bool.not_true, Bool.false_or] at hkp
      rw [mergedNodeOf_id]
      exact List.elem_iff.mp hkp
    · obtain ⟨n, hn, rfl⟩ := List.mem_map.mp hvr
      exact List.mem_map_of_mem _ (List.mem_of_mem_filter hn)
  · intro hx
    obtain ⟨n, hn, rfl⟩ := List.mem_map.mp hx
    by_cases hc : (containerIds g z0).contains n.id = true
    · obtain ⟨m, hm, hmeq⟩ := by
        have := List.elem_iff.mp hc
        rw [containerIds] at this
        exact List.mem_map.mp this
      obtain ⟨hmg, hmz⟩ := List.mem_filter.mp hm
      have hmz' : m.z = z0 := by simpa using hmz
      have hkp : mergeKeepB g z0 flow (mergedNodeOf flow m).id = true := by
        rw [mergedNodeOf_id, mergeKeepB, hmeq]
        have : (flow.map (fun v => v.id)).contains n.id = true :=
          List.elem_iff.mpr (List.mem_map_of_mem _ hn)
        rw [this]
        simp
      have hvmem : mergedNodeOf flow m ∈ canonNodes g z0 flow := by
        rw [canonNodes]
        exact List.mem_append_left _
          (List.mem_filter.mpr ⟨List.mem_map_of_mem _ hmg, hkp⟩)
      have hvz : ((mergedNodeOf flow m).z == z0) = true := by
        rw [mergedNodeOf_z]
        simp [hmz']
      have : (mergedNodeOf flow m).id = n.id := by rw [mergedNodeOf_id, hmeq]
      rw [← this]
      exact List.mem_map_of_mem _ (List.mem_filter.mpr ⟨hvmem, hvz⟩)
    · have hnA : n ∈ toAddOf g z0 flow := by
        refine List.mem_filter.mpr ⟨hn, ?_⟩
        show (!((containerIds g z0).contains n.id)) = true
        have : (containerIds g z0).contains n.id = false := by simpa using hc
        rw [this]
        rfl
      have hvmem : importNode z0 n ∈ canonNodes g z0 flow := by
        rw [canonNodes]
        exact List.mem_append_right _ (List.mem_map_of_mem _ hnA)
      have hvz : ((importNode z0 n).z == z0) = true := by simp [importNode]
      show n.id ∈ _
      have : (importNode z0 n).id = n.id := rfl
      rw [← this]
      exact List.mem_map_of_mem _ (List.mem_filter.mpr ⟨hvmem, hvz⟩)

theorem foldl_remove_noop (newIds : List String) :
    ∀ (ids : List String) (g : Graph),
      (∀ id ∈ ids, newIds.contains id = true) →
      ids.foldl (fun gr id => if newIds.contains id then gr
        else removeNodeFromGraph gr id) g = g := by
  intro ids
  induction ids with
  | nil => intro g _; rfl
  | cons a t ih =>
    intro g h
    rw [List.foldl_cons, if_pos (h a (List.mem_cons_self a t))]
    exact ih g (fun id hid => h id (List.mem_cons_of_mem a hid))

theorem contains_eq_of_perm {l₁ l₂ : List String} (h : l₁.Perm l₂)
    (x : String) : l₁.contains x = l₂.contains x := by
  cases hc : l₂.contains x with
  | true => exact List.elem_iff.mpr (h.mem_iff.mpr (List.elem_iff.mp hc))
  | false =>
    cases hl : l₁.contains x with
    | false => rfl
    | true =>
      have hmem : l₂.contains x = true :=
        List.elem_iff.mpr (h.mem_iff.mp (List.elem_iff.mp hl))
      rw [hc] at hmem
      exact absurd hmem (by decide)

theorem AU_perm_flow (g : Graph) (z0 : String) (flow : List ProposedNode) :
    (toAddOf g z0 flow ++ toUpdateOf g z0 flow).Perm flow := by
  have h := List.filter_append_perm
    (fun n => (containerIds g z0).contains n.id) flow
  exact List.perm_append_comm.trans h

theorem wired_partition_contains (g : Graph) (z0 : String)
    (flow : List ProposedNode) (x : String) :
    (wiredIdsOf (toAddOf g z0 flow ++ toUpdateOf g z0 flow)).contains x =
      (wiredIdsOf flow).contains x := by
  apply contains_eq_of_perm
  exact ((AU_perm_flow g z0 flow).filter _).map _

/-! ## Claim theorems: C4, C5, C7, C8, C10 -/

/-- C4 (counterexample): the claim's wait formula
`(serverSuppliedRetryAfterSeconds ?? 0) * 1000 + 1000` says that a 429
response with no server-supplied retry-after hint waits 1000 ms, but
`with429Retry` actually waits 2000 ms there (it defaults the hint itself to
1000 ms before adding the 1000 ms slack). -/
theorem retry_wait_cex :
    (with429Retry (fun _ => CallOutcome.rateLimited (α := Unit) none)).waitsMs[0]? =
        some 2000 ∧
      specRetryWaitMs none = 1000 ∧ (2000 : Int) ≠ 1000 := by
  refine ⟨by decide, by decide, by decide⟩

/-- C4 (amended): on every rate-limited (429) response the retry controller
waits `(serverSuppliedRetryAfterSeconds ?? 1) * 1000 + 1000` milliseconds —
one second of slack on top of the server hint, with the hint itself
defaulting to one second (hence 2000 ms total) when the server provides no
finite retry-after value. -/
theorem retry_wait_amended {α : Type} (calls : Nat → CallOutcome α) (k : Nat)
    (h : Option Int) (hk : k < 10)
    (hpre : ∀ j, j < k → ∃ hj, calls j = .rateLimited hj)
    (hcall : calls k = .rateLimited h) :
    (with429Retry calls).waitsMs[k]? = some ((h.getD 1) * 1000 + 1000) := by
  have hw := with429RetryGo_prefix_wait calls k 10 0 h hk
    (fun j hj => by rw [Nat.zero_add]; exact hpre j hj)
    (by rw [Nat.zero_add]; exact hcall)
  rw [with429Retry, hw]
  cases h with
  | none => norm_num [retryWaitMs]
  | some s => rfl

theorem retry_wait_amended_witness :
    (with429Retry (fun _ => CallOutcome.rateLimited (α := Unit) (some 5))).waitsMs[0]? =
      some 6000 := by
  have h := retry_wait_amended (fun _ => CallOutcome.rateLimited (α := Unit) (some 5))
    0 (some 5) (by decide) (fun j hj => absurd hj (Nat.not_lt_zero j)) rfl
  simpa using h

/-- C5: a wrapped call that fails with a rate-limit (429) response on every
invocation fails after exactly 10 invocations of `requestFn` — never more —
with the "Maximum retry attempts reached" error; and a failure that is not a
rate-limit response propagates immediately (after `k` leading 429s the
non-429 failure at attempt `k` is rethrown with exactly `k + 1` invocations,
i.e. with no retry of the failing call). -/
theorem retry_ceiling_and_failfast {α : Type} (calls : Nat → CallOutcome α) :
    ((∀ k, k < 10 → ∃ h, calls k = .rateLimited h) →
      (with429Retry calls).result =
          .error "Maximum retry attempts reached due to rate limiting" ∧
        (with429Retry calls).invocations = 10) ∧
    (∀ k msg, k < 10 → (∀ j, j < k → ∃ hj, calls j = .rateLimited hj) →
      calls k = .failed msg →
      (with429Retry calls).result = .error msg ∧
        (with429Retry calls).invocations = k + 1) := by
  constructor
  · intro hall
    exact with429RetryGo_exhaust calls 10 0
      (fun j hj => by rw [Nat.zero_add]; exact hall j hj)
  · intro k msg hk hpre hcall
    exact with429RetryGo_failfast calls k 10 0 msg hk
      (fun j hj => by rw [Nat.zero_add]; exact hpre j hj)
      (by rw [Nat.zero_add]; exact hcall)

theorem retry_ceiling_and_failfast_witness :
    (with429Retry (fun _ => CallOutcome.rateLimited (α := Unit) none)).invocations = 10 := by
  exact ((retry_ceiling_and_failfast _).1 (fun k _ => ⟨none, rfl⟩)).2

/-- C7: for both provider connectors (OpenAI and Azure OpenAI),
`validateConfig` on the empty configuration returns `valid = false` with a
non-empty error list in which every missing required field name occurs
(no short-circuiting at the first missing field), and on a configuration
with all required fields present returns `valid = true` with an empty error
list. -/
theorem validateConfig_complete :
    ((openaiValidateConfig emptyConfig).valid = false ∧
      (openaiValidateConfig emptyConfig).errors ≠ [] ∧
      ∀ f ∈ openaiRequired, ∃ e ∈ (openaiValidateConfig emptyConfig).errors,
        f.data <:+: e.data) ∧
    (∀ config, (∀ f ∈ openaiRequired, truthyStr (config f) = true) →
      openaiValidateConfig config = ⟨true, []⟩) ∧
    ((azureValidateConfig emptyConfig).valid = false ∧
      (azureValidateConfig emptyConfig).errors ≠ [] ∧
      ∀ f ∈ azureRequired, ∃ e ∈ (azureValidateConfig emptyConfig).errors,
        f.data <:+: e.data) ∧
    (∀ config, (∀ f ∈ azureRequired, truthyStr (config f) = true) →
      azureValidateConfig config = ⟨true, []⟩) := by
  refine ⟨?_, ?_, ?_, ?_⟩
  · exact validateConfigOf_empty_spec openaiRequired (by decide)
  · intro config hall
    exact validateConfigOf_full_spec openaiRequired config hall
  · exact validateConfigOf_empty_spec azureRequired (by decide)
  · intro config hall
    exact validateConfigOf_full_spec azureRequired config hall

theorem validateConfig_complete_witness :
    openaiValidateConfig (fun _ => some "key") = ⟨true, []⟩ ∧
      azureValidateConfig (fun _ => some "key") = ⟨true, []⟩ :=
  ⟨validateConfig_complete.2.1 _ (fun _ _ => by decide),
    validateConfig_complete.2.2.2 _ (fun _ _ => by decide)⟩

/-- C8 (counterexample): the claim's retained-node count
`max 1 (floor (n * budget / fullLength))` is the exact-arithmetic floor;
the code computes it in IEEE-754 double precision, which loses.  At 22
one-character nodes and budget 15 — the ratio `15 / 22` is the same
binary64 value as `18000 / 26400` — the code keeps
`floor(22 * roundToDouble(15/22)) = floor(14.999999999999998) = 14` nodes,
while the claim's exact formula gives 15, so the output differs from the
claimed one. -/
theorem serialize_keep_cex :
    serializeFlowContext padSerialize (List.range 22) 15 =
        padSerialize ((List.range 22).take 14) ++ truncNotice 14 22 ∧
      max 1 ((List.range 22).length * 15 /
        (padSerialize (List.range 22)).length) = 15 ∧
      serializeFlowContext padSerialize (List.range 22) 15 ≠
        padSerialize ((List.range 22).take
            (max 1 ((List.range 22).length * 15 /
              (padSerialize (List.range 22)).length))) ++
          truncNotice
            (max 1 ((List.range 22).length * 15 /
              (padSerialize (List.range 22)).length)) 22 := by
  refine ⟨by decide, by decide, by decide⟩

/-- C8 (amended): when the JSON serialization of the node list fits the
character budget, `serializeFlowContext` returns it unchanged; when it
exceeds the budget, the output is the serialization of exactly the first
`max 1 (floor64 (n * (budget / fullLength)))` nodes — the count the source
computes in IEEE-754 double precision, which can be one less than the exact
`floor (n * budget / fullLength)` — followed by the truncation notice, and
it contains the literal substring "Flow truncated". -/
theorem serializeFlowContext_amended {α : Type} (stringify : List α → String)
    (nodes : List α) (maxChars : Nat) :
    ((stringify nodes).length ≤ maxChars →
      serializeFlowContext stringify nodes maxChars = stringify nodes) ∧
    (maxChars < (stringify nodes).length →
      serializeFlowContext stringify nodes maxChars =
          stringify (nodes.take
              (jsKeepCount nodes.length maxChars (stringify nodes).length)) ++
            truncNotice
              (jsKeepCount nodes.length maxChars (stringify nodes).length)
              nodes.length ∧
        "Flow truncated".data <:+:
          (serializeFlowContext stringify nodes maxChars).data) := by
  constructor
  · intro h
    simp only [serializeFlowContext]
    rw [if_pos h]
  · intro h
    have hnot : ¬ (stringify nodes).length ≤ maxChars := by omega
    have heq : serializeFlowContext stringify nodes maxChars =
        stringify (nodes.take
            (jsKeepCount nodes.length maxChars (stringify nodes).length)) ++
          truncNotice
            (jsKeepCount nodes.length maxChars (stringify nodes).length)
            nodes.length := by
      simp only [serializeFlowContext]
      rw [if_neg hnot]
    refine ⟨heq, ?_⟩
    rw [heq, String.data_append]
    exact isInfix_append_left (infix_flowTruncated_notice _ _) _

theorem serializeFlowContext_amended_witness :
    1 < (natJoin [1, 2, 3]).length ∧
      serializeFlowContext natJoin [1, 2, 3] 1 =
        natJoin ([1, 2, 3].take
            (jsKeepCount ([1, 2, 3] : List Nat).length 1
              (natJoin [1, 2, 3]).length)) ++
          truncNotice
            (jsKeepCount ([1, 2, 3] : List Nat).length 1
              (natJoin [1, 2, 3]).length)
            ([1, 2, 3] : List Nat).length :=
  ⟨by decide, ((serializeFlowContext_amended natJoin [1, 2, 3] 1).2 (by decide)).1⟩

/-- C10: when a package name is not in the cache (absent, or present with
the empty string), `packageInfo` returns the description fetched from the
npm registry (or from the unpkg fallback), but the cache entry it writes is
the pre-fetch value of the `description` variable — the empty string — so
the fetched description is never stored and every subsequent lookup for the
same name attempts the network fetch again. -/
theorem packageInfo_never_caches (cache : List (String × String))
    (name d : String) (u : Option String)
    (hmiss : cache.lookup name = none ∨ cache.lookup name = some "") :
    ((packageInfo cache name (some d) u).description = d ∧
      (packageInfo cache name (some d) u).cache.lookup name = some "" ∧
      (packageInfo cache name (some d) u).fetched = true) ∧
    ((packageInfo cache name none (some d)).description = d ∧
      (packageInfo cache name none (some d)).cache.lookup name = some "" ∧
      (packageInfo cache name none (some d)).fetched = true) ∧
    (∀ r' u' : Option String,
      (packageInfo (packageInfo cache name (some d) u).cache name r' u').fetched = true ∧
      (packageInfo (packageInfo cache name none (some d)).cache name r' u').fetched
        = true) := by
  have hdesc : ((cache.lookup name).getD "") = "" := by
    rcases hmiss with h | h <;> simp [h]
  have hreg : packageInfo cache name (some d) u =
      ⟨d, mapSet cache name "", true⟩ := by
    simp [packageInfo, hdesc]
  have hunp : packageInfo cache name none (some d) =
      ⟨d, mapSet cache name "", true⟩ := by
    simp [packageInfo, hdesc]
  have hcache : (mapSet cache name "").lookup name = some "" :=
    lookup_mapSet_self cache name ""
  refine ⟨⟨by rw [hreg], by rw [hreg]; exact hcache, by rw [hreg]⟩,
    ⟨by rw [hunp], by rw [hunp]; exact hcache, by rw [hunp]⟩, ?_⟩
  intro r' u'
  have hfetch : ∀ r'' u'' : Option String,
      (packageInfo (mapSet cache name "") name r'' u'').fetched = true := by
    intro r'' u''
    cases r'' <;> cases u'' <;> simp [packageInfo, hcache]
  exact ⟨by rw [hreg]; exact hfetch r' u', by rw [hunp]; exact hfetch r' u'⟩

/-- C6 (code evaluated at the failing input): the claim requires that a
second resync request for a node already in "syncing" status must not be
started (coalesced, queued, ignored, or made to wait).  The code has no such
guard: under the schedule where task A performs its first action and then
task B is scheduled while A is suspended at its HTTP await, B's first action
executes even though the status is already `syncing`, and both tasks run to
completion — the final state has both action lists exhausted.  Hence two
concurrent syncing operations for the same node identifier both run to
completion, contradicting the claimed per-node serialization. -/
theorem resync_not_serialized_per_node :
    (runSchedule [true] twoResyncInit).status = SyncStatus.syncing ∧
      (runSchedule [true] twoResyncInit).threadB = resyncProgram ∧
      (runSchedule [true, false] twoResyncInit).threadB =
        [ResyncAction.await, ResyncAction.applyResult, ResyncAction.setIdle] ∧
      (runSchedule [true, false] twoResyncInit).status = SyncStatus.syncing ∧
      (runSchedule [true, false, true, true, true, false, false, false]
          twoResyncInit).threadA = [] ∧
      (runSchedule [true, false, true, true, true, false, false, false]
          twoResyncInit).threadB = [] := by
  decide

/-- C9 (counterexample): the claim says every parse-failure error message
includes at most the first 200 characters of the original content.  For
`generateDescription` the preview is taken from the unwrapped `cleanContent`
instead: on a fenced non-JSON reply whose marker character `Q` sits past
offset 200 of the original reply, the error message contains `Q`, a
character that does not occur among the first 200 characters of the original
content. -/
theorem response_preview_cex :
    (descriptionParseStep cexReply).success = false ∧
      ('Q' ∈ (descriptionParseStep cexReply).error.data) ∧
      ('Q' ∉ cexReply.data.take 200) := by
  set_option maxRecDepth 8000 in decide

/-- C9 (amended): a reply consisting of a JSON text wrapped in a fenced
code block (with or without the `json` tag) is cleaned to exactly the
unwrapped text, so it yields the same parsed result; and a reply that is not
valid JSON after unwrapping yields a failure whose error message carries a
bounded preview of at most 200 characters taken verbatim from the reply —
the first 200 characters of the original content for flow generation and
resync, and the first 200 characters of the unwrapped content (a contiguous
substring of the original) for description generation — never the whole
payload beyond that bound. -/
theorem response_parsing_amended :
    (∀ j : String, j.data ≠ [] → jsTrim j.data = j.data → NoTriple j.data →
      (flowParseStep ("```json\n" ++ j ++ "\n```")).parsed =
          (flowParseStep j).parsed ∧
        (flowParseStep ("```json\n" ++ j ++ "\n```")).success =
          (flowParseStep j).success ∧
        (flowParseStep ("```\n" ++ j ++ "\n```")).parsed =
          (flowParseStep j).parsed ∧
        descriptionParseStep ("```json\n" ++ j ++ "\n```") =
          descriptionParseStep j) ∧
    (∀ content : String, jsonParse (stripCodeBlock content) = none →
      flowParseStep content =
          ⟨false, none, "AI returned invalid JSON. Response preview: " ++
            String.mk (content.data.take 200)⟩ ∧
        (content.data.take 200).length ≤ 200 ∧
        descriptionParseStep content =
          ⟨false, none, "AI returned invalid JSON. Response preview: " ++
            String.mk ((stripCodeBlock content).data.take 200)⟩ ∧
        ((stripCodeBlock content).data.take 200).length ≤ 200 ∧
        ((stripCodeBlock content).data.take 200) <:+: content.data) := by
  constructor
  · intro j hne hfix hnt
    have hwj := stripCodeBlock_wrapped_json j hne hfix hnt
    have hwp := stripCodeBlock_wrapped_plain j hne hfix hnt
    have hsj := stripCodeBlock_self j hfix hnt
    refine ⟨?_, ?_, ?_, ?_⟩ <;>
      simp only [flowParseStep, descriptionParseStep, hwj, hwp, hsj] <;>
      cases hjp : jsonParse j <;> simp [hjp]
  · intro content h
    refine ⟨?_, ?_, ?_, ?_, ?_⟩
    · simp only [flowParseStep, h]
    · exact List.length_take_le _ _
    · simp only [descriptionParseStep, h]
    · exact List.length_take_le _ _
    · exact (List.take_prefix _ _).isInfix.trans (stripCodeBlock_data_within content)

theorem response_parsing_amended_witness :
    (flowParseStep ("```json\n" ++ "\x7b\"a\":1\x7d" ++ "\n```")).parsed =
        (flowParseStep "\x7b\"a\":1\x7d").parsed ∧
      flowParseStep "notjson" =
        ⟨false, none, "AI returned invalid JSON. Response preview: " ++
          String.mk (("notjson" : String).data.take 200)⟩ := by
  constructor
  · exact (response_parsing_amended.1 "\x7b\"a\":1\x7d" (by decide) (by decide)
      (by decide)).1
  · exact (response_parsing_amended.2 "notjson" (by rfl)).1

theorem packageInfo_never_caches_witness :
    (([] : List (String × String)).lookup "pkg" = none) ∧
      (packageInfo [] "pkg" (some "a flow helper") none).description = "a flow helper" ∧
      (packageInfo [] "pkg" (some "a flow helper") none).cache.lookup "pkg" = some "" := by
  have h := packageInfo_never_caches [] "pkg" "a flow helper" none (Or.inl rfl)
  exact ⟨rfl, h.1.1, h.1.2.1⟩

/-- C2: the merge applies its phases in the order import (of the proposed
nodes absent from the target container, with their wiring rebuilt) →
update → removal, as the literal composition of the phase functions; and
under a well-formed merge every node that was in the target container
before the merge and whose identifier is absent from the proposal is
deleted (no post-merge node carries its identifier), while the post-merge
container holds exactly the proposed identifier set (its identifier list is
a permutation of the proposal's). -/
theorem merge_phase_order_and_removal (g : Graph) (z0 : String)
    (flow : List ProposedNode) (hwf : MergeWF g z0 flow) :
    mergeFlow g z0 flow =
      (containerIds g z0).foldl
        (fun gr id => if (flow.map (fun n => n.id)).contains id then gr
          else removeNodeFromGraph gr id)
        ((toUpdateOf g z0 flow).foldl applyUpdate
          ((toAddOf g z0 flow).foldl fixAddedNodeWires
            (if (toAddOf g z0 flow).isEmpty then g
              else importNodes g z0 (toAddOf g z0 flow)))) ∧
    (∀ m ∈ g.nodes, m.z = z0 →
      (flow.map (fun n => n.id)).contains m.id = false →
      ∀ v ∈ (mergeFlow g z0 flow).nodes, v.id ≠ m.id) ∧
    (((mergeFlow g z0 flow).nodes.filter (fun v => v.z == z0)).map
        (fun v => v.id)).Perm (flow.map (fun n => n.id)) := by
  obtain ⟨hgnd, hfnd, hcross, hpnd⟩ := hwf
  have hchar := mergeFlow_char g z0 flow ⟨hgnd, hfnd, hcross, hpnd⟩
  refine ⟨rfl, ?_, ?_⟩
  · intro m hm hz hflow v hv hveq
    rw [hchar.1, canonNodes] at hv
    have hmidc : (containerIds g z0).contains m.id = true := by
      apply List.elem_iff.mpr
      rw [containerIds]
      exact List.mem_map_of_mem _ (List.mem_filter.mpr ⟨hm, by simp [hz]⟩)
    rcases List.mem_append.mp hv with hvl | hvr
    · obtain ⟨hvm, hkp⟩ := List.mem_filter.mp hvl
      obtain ⟨w, hw, rfl⟩ := List.mem_map.mp hvm
      have hkp' : mergeKeepB g z0 flow (mergedNodeOf flow w).id = true := hkp
      rw [mergedNodeOf_id, mergeKeepB] at hkp'
      rw [mergedNodeOf_id] at hveq
      rw [hveq, hmidc, hflow] at hkp'
      exact absurd hkp' (by decide)
    · obtain ⟨n, hn, rfl⟩ := List.mem_map.mp hvr
      have himp : (importNode z0 n).id = n.id := rfl
      rw [himp] at hveq
      have hmem : (flow.map (fun n => n.id)).contains m.id = true := by
        apply List.elem_iff.mpr
        rw [← hveq]
        exact List.mem_map_of_mem _ (List.mem_of_mem_filter hn)
      rw [hflow] at hmem
      exact absurd hmem (by decide)
  · have hLnodup : (((mergeFlow g z0 flow).nodes.filter
        (fun v => v.z == z0)).map (fun v => v.id)).Nodup := by
      have hmn := mergedIds_nodup g z0 flow hgnd hfnd hcross
      have hsub : (((mergeFlow g z0 flow).nodes.filter
          (fun v => v.z == z0)).map (fun v => v.id)).Sublist
          ((mergeFlow g z0 flow).nodes.map (fun v => v.id)) :=
        (List.filter_sublist _).map _
      refine List.Nodup.sublist hsub ?_
      rw [hchar.1]
      exact hmn
    exact (List.perm_ext_iff_of_nodup hLnodup hfnd).mpr
      (merged_container_mem g z0 flow ⟨hgnd, hfnd, hcross, hpnd⟩)

theorem merge_phase_order_and_removal_witness :
    MergeWF mgG "tab" mgFlow ∧
    (((mergeFlow mgG "tab" mgFlow).nodes.filter
        (fun v => v.z == "tab")).map (fun v => v.id)).Perm
      (mgFlow.map (fun n => n.id)) :=
  ⟨by decide, (merge_phase_order_and_removal mgG "tab" mgFlow (by decide)).2.2⟩

/-- C3: for a well-formed merge and a proposed node `n` whose identifier
already names a registry node `u`, the merged graph holds the patched node
`applyNodePatch n u`; the patch preserves identifier, type and container,
overwrites the coordinates only when the proposal carries them (absence
keeps the existing position), takes the proposed wires list only when
present (absence keeps the existing wiring), copies every proposed dynamic
field onto the node, and leaves every non-proposed dynamic field unchanged;
at the link level the update step rebuilds the node's outgoing links
(remove existing, then recreate from the wire list) only when the proposal
carries a wires list and leaves the links untouched otherwise. -/
theorem merge_update_frame (g : Graph) (z0 : String)
    (flow : List ProposedNode) (hwf : MergeWF g z0 flow)
    (n : ProposedNode) (hn : n ∈ flow) (u : GraphNode) (hu : u ∈ g.nodes)
    (hid : u.id = n.id) :
    (applyNodePatch n u ∈ (mergeFlow g z0 flow).nodes ∧
      (applyNodePatch n u).id = u.id ∧
      (applyNodePatch n u).type = u.type ∧
      (applyNodePatch n u).z = u.z ∧
      (applyNodePatch n u).x = n.x.getD u.x ∧
      (applyNodePatch n u).y = n.y.getD u.y ∧
      (n.wires = none → (applyNodePatch n u).wires = u.wires) ∧
      (∀ ws, n.wires = some ws → (applyNodePatch n u).wires = some ws) ∧
      (∀ k v, (k, v) ∈ n.props →
        propValue (applyNodePatch n u).props k = some v) ∧
      (∀ k, (∀ p ∈ n.props, (p.1 == k) = false) →
        propValue (applyNodePatch n u).props k = propValue u.props k)) ∧
    (∀ g', (lookupNode g' n.id).isSome = true → n.wires = none →
      (applyUpdate g' n).links = g'.links) ∧
    (∀ g' ws, (lookupNode g' n.id).isSome = true → n.wires = some ws →
      (applyUpdate g' n).links =
        g'.links.filter (fun l => !(l.source == n.id)) ++
          groupLinks (nodeExists g') n) := by
  obtain ⟨hgnd, hfnd, hcross, hpnd⟩ := hwf
  have hfind : flow.find? (fun m => m.id == u.id) = some n := by
    rw [hid]
    exact find?_self_of_nodup flow n hn hfnd
  have hmn : mergedNodeOf flow u = applyNodePatch n u := by
    rw [mergedNodeOf, hfind]
  have hkp : mergeKeepB g z0 flow (mergedNodeOf flow u).id = true := by
    rw [mergedNodeOf_id, hid]
    exact keep_of_mem_flow hn
  refine ⟨⟨?_, rfl, rfl, rfl, ?_, ?_, ?_, ?_, ?_, ?_⟩, ?_, ?_⟩
  · rw [(mergeFlow_char g z0 flow ⟨hgnd, hfnd, hcross, hpnd⟩).1, canonNodes,
      ← hmn]
    exact List.mem_append_left _
      (List.mem_filter.mpr ⟨List.mem_map_of_mem _ hu, hkp⟩)
  · cases hx : n.x <;> simp [applyNodePatch, hx]
  · cases hy : n.y <;> simp [applyNodePatch, hy]
  · intro h
    simp [applyNodePatch, h]
  · intro ws h
    simp [applyNodePatch, h]
  · intro k v hkv
    show ((overwriteProps u.props n.props).find?
      (fun e => e.1 == k)).map Prod.snd = some v
    exact congrArg (Option.map Prod.snd)
      (overwrite_find_mem n.props u.props (hpnd n hn) (k, v) hkv)
  · intro k hk
    show ((overwriteProps u.props n.props).find?
        (fun e => e.1 == k)).map Prod.snd =
      (u.props.find? (fun e => e.1 == k)).map Prod.snd
    rw [overwrite_find_not_mem n.props u.props k hk]
  · intro g' hsome hwnone
    cases hl : lookupNode g' n.id with
    | none => rw [hl] at hsome; exact absurd hsome (by decide)
    | some w => simp [applyUpdate, hl, hwnone]
  · intro g' ws hsome hws
    cases hl : lookupNode g' n.id with
    | none => rw [hl] at hsome; exact absurd hsome (by decide)
    | some w => simp [applyUpdate, hl, hws, rebuildLinks]

theorem merge_update_frame_witness :
    MergeWF mgG "tab" mgFlow ∧ mgN ∈ mgFlow ∧ mgU ∈ mgG.nodes ∧
      mgU.id = mgN.id ∧
      applyNodePatch mgN mgU ∈ (mergeFlow mgG "tab" mgFlow).nodes :=
  ⟨by decide, by decide, by decide, by decide,
    (merge_update_frame mgG "tab" mgFlow (by decide) mgN (by decide) mgU
      (by decide) (by decide)).1.1⟩

/-- C1: merge idempotence — applying the merge a second time with the same
proposal, against the result of the first application, leaves the node list
identical (no additions, no removals, no field, coordinate or wires-field
drift) and the link list unchanged as a set of connections (a permutation
of the first result's links: the second pass rebuilds exactly the same
links, traversing the proposal in its own order instead of
additions-before-updates order). -/
theorem merge_idempotent (g : Graph) (z0 : String) (flow : List ProposedNode)
    (hwf : MergeWF g z0 flow) :
    (mergeFlow (mergeFlow g z0 flow) z0 flow).nodes =
      (mergeFlow g z0 flow).nodes ∧
    ((mergeFlow (mergeFlow g z0 flow) z0 flow).links).Perm
      (mergeFlow g z0 flow).links := by
  obtain ⟨hgnd, hfnd, hcross, hpnd⟩ := hwf
  have hchar := mergeFlow_char g z0 flow ⟨hgnd, hfnd, hcross, hpnd⟩
  have hmemc := merged_container_mem g z0 flow ⟨hgnd, hfnd, hcross, hpnd⟩
  have hcontainsAll : ∀ id ∈ containerIds (mergeFlow g z0 flow) z0,
      (flow.map (fun n => n.id)).contains id = true := by
    intro x hx
    exact List.elem_iff.mpr ((hmemc x).mp hx)
  have hflowIn : ∀ n ∈ flow,
      (containerIds (mergeFlow g z0 flow) z0).contains n.id = true := by
    intro n hn
    exact List.elem_iff.mpr ((hmemc n.id).mpr (List.mem_map_of_mem _ hn))
  have htA : toAddOf (mergeFlow g z0 flow) z0 flow = [] := by
    rw [toAddOf]
    apply List.filter_eq_nil_iff.mpr
    intro n hn
    have hm : n.id ∈ containerIds (mergeFlow g z0 flow) z0 :=
      List.elem_iff.mp (hflowIn n hn)
    simp [hm]
  have htU : toUpdateOf (mergeFlow g z0 flow) z0 flow = flow := by
    rw [toUpdateOf]
    apply List.filter_eq_self.mpr
    intro n hn
    exact hflowIn n hn
  have h2 : mergeFlow (mergeFlow g z0 flow) z0 flow =
      flow.foldl applyUpdate (mergeFlow g z0 flow) := by
    have hunf : mergeFlow (mergeFlow g z0 flow) z0 flow =
        (containerIds (mergeFlow g z0 flow) z0).foldl
          (fun gr id => if (flow.map (fun n => n.id)).contains id then gr
            else removeNodeFromGraph gr id)
          ((toUpdateOf (mergeFlow g z0 flow) z0 flow).foldl applyUpdate
            ((toAddOf (mergeFlow g z0 flow) z0 flow).foldl fixAddedNodeWires
              (if (toAddOf (mergeFlow g z0 flow) z0 flow).isEmpty
                then mergeFlow g z0 flow
                else importNodes (mergeFlow g z0 flow) z0
                  (toAddOf (mergeFlow g z0 flow) z0 flow)))) := rfl
    rw [hunf, htA, htU]
    exact foldl_remove_noop (flow.map (fun n => n.id))
      (containerIds (mergeFlow g z0 flow) z0) _ hcontainsAll
  have hMnd : ((mergeFlow g z0 flow).nodes.map (fun n => n.id)).Nodup := by
    rw [hchar.1]
    exact mergedIds_nodup g z0 flow hgnd hfnd hcross
  have hpre2 : ∀ n ∈ flow,
      (lookupNode (mergeFlow g z0 flow) n.id).isSome = true := by
    intro n hn
    show nodeExists (mergeFlow g z0 flow) n.id = true
    rw [nodeExists_eq_contains]
    apply List.elem_iff.mpr
    obtain ⟨v, hv, hveq⟩ :=
      List.mem_map.mp ((hmemc n.id).mpr (List.mem_map_of_mem _ hn))
    rw [← hveq]
    exact List.mem_map_of_mem _ (List.mem_of_mem_filter hv)
  have hupd2 := foldl_upd_char flow (mergeFlow g z0 flow) hpre2 hfnd hMnd
  constructor
  · rw [h2, hupd2.1]
    have hpt : ∀ v ∈ (mergeFlow g z0 flow).nodes,
        mergedNodeOf flow v = v := by
      intro v hv
      rw [hchar.1, canonNodes] at hv
      rcases List.mem_append.mp hv with hvl | hvr
      · obtain ⟨hvm, -⟩ := List.mem_filter.mp hvl
        obtain ⟨w, hw, rfl⟩ := List.mem_map.mp hvm
        exact mergedNodeOf_idem flow hpnd w
      · obtain ⟨n, hn, rfl⟩ := List.mem_map.mp hvr
        have hnfind : flow.find? (fun m => m.id == (importNode z0 n).id) =
            some n :=
          find?_self_of_nodup flow n (List.mem_of_mem_filter hn) hfnd
        rw [mergedNodeOf, hnfind]
        exact applyNodePatch_import z0 n (hpnd n (List.mem_of_mem_filter hn))
    exact (List.map_congr_left (fun v hv => hpt v hv)).trans
      (List.map_id' _)
  · rw [h2, hupd2.2]
    have hex : nodeExists (mergeFlow g z0 flow) =
        fun t => (mergedIdsOf g z0 flow).contains t := by
      funext t
      rw [nodeExists_eq_contains, hchar.1]
      rfl
    rw [hex]
    have hfrontA : ((mergeFlow g z0 flow).links.filter
        (fun l => !((wiredIdsOf flow).contains l.source))) =
        g.links.filter (fun l =>
          !((wiredIdsOf (toAddOf g z0 flow ++ toUpdateOf g z0 flow)).contains
              l.source) &&
            mergeKeepB g z0 flow l.source &&
            mergeKeepB g z0 flow l.target) := by
      rw [hchar.2, canonLinks, List.filter_append]
      have h1 : ((g.links.filter (fun l =>
          !((wiredIdsOf (toAddOf g z0 flow ++ toUpdateOf g z0 flow)).contains
              l.source) &&
            mergeKeepB g z0 flow l.source &&
            mergeKeepB g z0 flow l.target)).filter
          (fun l => !((wiredIdsOf flow).contains l.source))) =
          g.links.filter (fun l =>
            !((wiredIdsOf (toAddOf g z0 flow ++ toUpdateOf g z0 flow)).contains
                l.source) &&
              mergeKeepB g z0 flow l.source &&
              mergeKeepB g z0 flow l.target) := by
        apply List.filter_eq_self.mpr
        intro l hl
        obtain ⟨-, hpl⟩ := List.mem_filter.mp hl
        rw [Bool.and_eq_true, Bool.and_eq_true] at hpl
        show (!((wiredIdsOf flow).contains l.source)) = true
        rw [← wired_partition_contains g z0 flow l.source]
        exact hpl.1.1
      have h2g : ((((toAddOf g z0 flow ++ toUpdateOf g z0 flow).filter
          (fun n => n.wires.isSome)).flatMap
          (groupLinks (fun t => (mergedIdsOf g z0 flow).contains t))).filter
          (fun l => !((wiredIdsOf flow).contains l.source))) = [] := by
        rw [filter_flatMap]
        apply List.flatMap_eq_nil_iff.mpr
        intro n hn
        obtain ⟨hnAU, hnw⟩ := List.mem_filter.mp hn
        apply groupLinks_filter_source_false
          (q := fun s => !((wiredIdsOf flow).contains s))
        show (!((wiredIdsOf flow).contains n.id)) = false
        have hcont : (wiredIdsOf flow).contains n.id = true := by
          apply List.elem_iff.mpr
          rw [wiredIdsOf]
          exact List.mem_map_of_mem _ (List.mem_filter.mpr
            ⟨(AU_perm_flow g z0 flow).mem_iff.mp hnAU, hnw⟩)
        rw [hcont]
        rfl
      rw [h1, h2g, List.append_nil]
    rw [hfrontA]
    conv_rhs => rw [hchar.2, canonLinks]
    refine List.Perm.append_left _ ?_
    exact List.Perm.flatMap_right _
      (((AU_perm_flow g z0 flow).filter _).symm)

theorem merge_idempotent_witness :
    MergeWF mgG "tab" mgFlow ∧
    (mergeFlow (mergeFlow mgG "tab" mgFlow) "tab" mgFlow).nodes =
      (mergeFlow mgG "tab" mgFlow).nodes :=
  ⟨by decide, (merge_idempotent mgG "tab" mgFlow (by decide)).1⟩

end SFL
